import Mathlib

/-!
Verification of the temporal-drift timeline parsing and live decoration engine.

The definitions below are a shallow embedding of the TypeScript sources:
  * `src/preview/timeline-postprocessor.ts` (reading-view parser; regexes
    `TIME_LINE_RE`, `IS_TIME_LINE`, helpers `parseWikilinkDisplay`,
    `stripWikilinks`, `stripEventIdSuffix`, `extractPrimaryLink`,
    `extractParticipants`, `parseEntriesFromMarkdown`),
  * `src/editor/timeline-live-preview.ts` (`findNearestTimeLineAbove`,
    `buildEntries`, `selectionOverlaps`, `buildDecorations`,
    `TimelineLivePreviewSyncPlugin`).

Strings are modelled over `List Char`; JavaScript regexes are translated to
explicit deterministic scanners (each regex used by the program backtracks
trivially, which is argued case by case in comments at each definition).
Documents are lists of lines; CodeMirror character offsets and line lookup
are reproduced by `lineFromOff`/`lineToOff`/`lineNumAt` (0-based line
indices stand for CodeMirror's 1-based line numbers).
-/

namespace TemporalDrift

/-- JS whitespace for the ASCII range: regex `\s` and `String.prototype.trim`. -/
def isWsChar (c : Char) : Bool :=
  c == ' ' || c == '\t' || c == '\n' || c == '\r' || c == '\x0b' || c == '\x0c'

/-- Regex `\d`, i.e. `[0-9]`. -/
def isDigitChar (c : Char) : Bool :=
  '0' ≤ c && c ≤ '9'

/-- Regex `[a-zA-Z0-9]`. -/
def isAlnumChar (c : Char) : Bool :=
  ('a' ≤ c && c ≤ 'z') || ('A' ≤ c && c ≤ 'Z') || isDigitChar c

/-- List-marker characters of the header grammar: `[-*+]`. -/
def isMarkerChar (c : Char) : Bool :=
  c == '-' || c == '*' || c == '+'

/-- The literal participant delimiter of `extractParticipants`. -/
def withDelim : String := " with "

/-- Newline, the line separator used by `split("\n")` and `join("\n")`. -/
def nlStr : String := "\n"

/-- JS `String.prototype.trim` on a character list (ASCII whitespace). -/
def jsTrimL (cs : List Char) : List Char :=
  ((cs.dropWhile isWsChar).reverse.dropWhile isWsChar).reverse

/-- JS `String.prototype.trim`. -/
def jsTrim (s : String) : String :=
  ⟨jsTrimL s.data⟩

/-- JS `s.split("/").pop()`: the segment after the last `/` (the whole string
if there is no `/`, empty if the string ends in `/`). -/
def lastSeg (cs : List Char) : List Char :=
  (cs.reverse.takeWhile (fun c => c != '/')).reverse

/-- JS `String.prototype.indexOf` for a fixed pattern: index of the first
occurrence of `pat` in `cs`, if any. -/
def findSub (pat : List Char) : List Char → Option Nat
  | [] => if pat.isPrefixOf ([] : List Char) then some 0 else none
  | c :: t =>
    if pat.isPrefixOf (c :: t) then some 0
    else (findSub pat t).map (· + 1)

/-- Shared prefix of `TIME_LINE_RE` and `IS_TIME_LINE`:
`^\s*(?:[-*+]\s+)?(\d{2}):(\d{2})`.  Returns the five time-label characters
`dd:dd` and the remainder of the line.  The regex is deterministic: the
greedy `\s*`/`\s+` runs cannot be shrunk usefully because the character
after them must be a non-whitespace digit or `[-*+]`, and the optional
marker group either matches `[-*+]\s+` or the two digits must start at the
marker character itself (which fails, as `[-*+]` are not digits). -/
def parseTimePrefix (cs : List Char) : Option (List Char × List Char) :=
  let r0 := cs.dropWhile isWsChar
  let r1 := match r0 with
            | c :: d :: t =>
              if isMarkerChar c && isWsChar d then (d :: t).dropWhile isWsChar else r0
            | _ => r0
  match r1 with
  | a :: b :: ':' :: c :: d :: rest =>
    if isDigitChar a && isDigitChar b && isDigitChar c && isDigitChar d then
      some ([a, b, ':', c, d], rest)
    else none
  | _ => none

/-- Regex `IS_TIME_LINE = /^\s*(?:[-*+]\s+)?\d{2}:\d{2}\s/` (and the
`isTimelineLine` helper imported by the live-preview module, whose
`src/parsing/timeline.ts` source is not in the tree; modelled from the
spec's §4.1 grammar, which coincides with this in-repo twin regex). -/
def isTimelineLine (s : String) : Bool :=
  match parseTimePrefix s.data with
  | some (_, c :: _) => isWsChar c
  | _ => false

/-- Result of parsing one header line: the time label, the trimmed header
text, and the character offset of the header text within the line. -/
structure TLParsed where
  timeText : String
  head : String
  headStart : Nat
  deriving Repr, DecidableEq

/-- Regex `TIME_LINE_RE = /^\s*(?:[-*+]\s+)?(\d{2}):(\d{2})\s+(.*)$/` with the
post-processing done by its callers: `time` is `m[1] + ":" + m[2]` (exactly
the five matched label characters) and `head` is `m[3].trim()`.  This also
models `parseTimelineLine` of the missing `src/parsing/timeline.ts`
(modelled from the spec, §4.1), with `headStart` the offset of `m[3]`. -/
def parseTimelineLine (s : String) : Option TLParsed :=
  match parseTimePrefix s.data with
  | none => none
  | some (t, rest) =>
    match rest with
    | [] => none
    | c :: _ =>
      if isWsChar c then
        let r2 := rest.dropWhile isWsChar
        some ⟨⟨t⟩, ⟨jsTrimL r2⟩, s.data.length - r2.length⟩
      else none

/-- A participant or link reference: `{ target, display }`. -/
structure Participant where
  target : String
  display : String
  deriving Repr, DecidableEq

/-- `parseWikilinkDisplay`: regex `^([^|]+)(?:\|(.+))?$` over the bracket
content.  On a match, `target = m[1].trim()` and
`display = (m[2] ?? target.split("/").pop()).trim()`; when the regex fails
(empty content, content starting with `|`, or a trailing `|` with nothing
after it) the fallbacks `target = raw.trim()`,
`display = target.split("/").pop().trim()` apply — which is the same
formula as the pipe-free success case. -/
def parseWikilinkDisplay (raw : List Char) : Participant :=
  match raw.span (fun c => c != '|') with
  | (a, '|' :: after) =>
    if a.isEmpty || after.isEmpty then
      let t := jsTrimL raw
      ⟨⟨t⟩, ⟨jsTrimL (lastSeg t)⟩⟩
    else
      ⟨⟨jsTrimL a⟩, ⟨jsTrimL after⟩⟩
  | _ =>
    let t := jsTrimL raw
    ⟨⟨t⟩, ⟨jsTrimL (lastSeg t)⟩⟩

/-- First match of `/\[\[([^\]]+)\]\]/`: scan left to right; at `[[` take the
maximal run of non-`]` characters (nonempty) and require a closing `]]`.
On failure the scan advances one character (so a second `[` is retried).
Iteration is bounded by `fuel`; every step consumes at least one input
character, so the `cs.length` supplied by `findPrimary` is always enough. -/
def findPrimaryGo : Nat → List Char → Option (List Char)
  | 0, _ => none
  | _ + 1, [] => none
  | fuel + 1, '[' :: '[' :: r1 =>
    let content := r1.takeWhile (fun c => c != ']')
    let r2 := r1.dropWhile (fun c => c != ']')
    (match content, r2 with
     | _ :: _, ']' :: ']' :: _ => some content
     | _, _ => findPrimaryGo fuel ('[' :: r1))
  | fuel + 1, _ :: t => findPrimaryGo fuel t

/-- First wikilink content of a string. -/
def findPrimary (cs : List Char) : Option (List Char) :=
  findPrimaryGo cs.length cs

/-- `extractPrimaryLink`: the first bracketed reference of the header text. -/
def extractPrimaryLink (head : String) : Option Participant :=
  (findPrimary head.data).map parseWikilinkDisplay

/-- All matches of `/\[\[([^\]]+)\]\]/g` in order (regex `matchAll`): after a
match the scan continues just past it; after a failed attempt it advances
one character.  Iteration is bounded by `fuel`; every step consumes at
least one input character, so `cs.length` is always enough. -/
def allWikilinksGo : Nat → List Char → List (List Char)
  | 0, _ => []
  | _ + 1, [] => []
  | fuel + 1, '[' :: '[' :: r1 =>
    let content := r1.takeWhile (fun c => c != ']')
    let r2 := r1.dropWhile (fun c => c != ']')
    (match content, r2 with
     | _ :: _, ']' :: ']' :: r5 => content :: allWikilinksGo fuel r5
     | _, _ => allWikilinksGo fuel ('[' :: r1))
  | fuel + 1, _ :: t => allWikilinksGo fuel t

/-- All wikilink contents of a string, in order. -/
def allWikilinkContents (cs : List Char) : List (List Char) :=
  allWikilinksGo cs.length cs

/-- `extractParticipants`: bracketed references after the literal `" with "`
delimiter, in order; empty when the delimiter is absent. -/
def extractParticipants (head : String) : List Participant :=
  match findSub withDelim.data head.data with
  | none => []
  | some i =>
    (allWikilinkContents (head.data.drop (i + withDelim.data.length))).map parseWikilinkDisplay

/-- Global replace of `/\[\[([^\]|]+)(?:\|([^\]]+))?\]\]/g` by the display
text `(p2 ?? p1.split("/").pop()).trim()` (`stripWikilinks`).  Content stops
at the first `]` or `|`; an explicit display stops at the first `]`; both
must be nonempty and the match must close with `]]`, otherwise the scan
advances a single character. -/
def stripWLGo : Nat → List Char → List Char
  | 0, cs => cs
  | _ + 1, [] => []
  | fuel + 1, '[' :: '[' :: r1 =>
    let content := r1.takeWhile (fun c => c != ']' && c != '|')
    let r2 := r1.dropWhile (fun c => c != ']' && c != '|')
    (match content, r2 with
     | _ :: _, '|' :: r3 =>
       let disp := r3.takeWhile (fun c => c != ']')
       let r4 := r3.dropWhile (fun c => c != ']')
       (match disp, r4 with
        | _ :: _, ']' :: ']' :: r5 => jsTrimL disp ++ stripWLGo fuel r5
        | _, _ => '[' :: stripWLGo fuel ('[' :: r1))
     | _ :: _, ']' :: ']' :: r5 => jsTrimL (lastSeg content) ++ stripWLGo fuel r5
     | _, _ => '[' :: stripWLGo fuel ('[' :: r1))
  | fuel + 1, c :: t => c :: stripWLGo fuel t

/-- `stripWikilinks` on strings (`fuel = length` is always enough, every
step consuming at least one character). -/
def stripWikilinks (s : String) : String :=
  ⟨stripWLGo s.data.length s.data⟩

/-- Does `/\s*~[a-zA-Z0-9]+$/` match starting exactly here?  The greedy `\s*`
run must be followed by a literal `~` and then a nonempty all-alphanumeric
run extending to the end of the string. -/
def idSuffixHit (cs : List Char) : Bool :=
  match cs.dropWhile isWsChar with
  | '~' :: t => !t.isEmpty && t.all isAlnumChar
  | _ => false

/-- First-match replace of `/\s*~[a-zA-Z0-9]+$/` with the empty string: scan
positions left to right; any match necessarily extends to the end of the
string, so everything from the first matching position on is dropped. -/
def stripIdScan : List Char → List Char
  | [] => []
  | c :: rest => if idSuffixHit (c :: rest) then [] else c :: stripIdScan rest

/-- `stripEventIdSuffix`: `title.replace(/\s*~[a-zA-Z0-9]+$/, "").trim()`. -/
def stripEventIdSuffix (title : String) : String :=
  ⟨jsTrimL (stripIdScan title.data)⟩

/-- The empty string. -/
def emptyStr : String := ""

/-- The text of line `n` of a document (a document is its list of lines;
0-based indices here stand for CodeMirror's 1-based line numbers). -/
def lineText (doc : List String) (n : Nat) : String :=
  doc.getD n emptyStr

/-- JS `md.split("\n")`. -/
def splitNL (s : String) : List String :=
  (s.data.splitOn '\n').map (fun l => ⟨l⟩)

/-- CodeMirror `doc.toString()`: the lines joined by newlines. -/
def docString (doc : List String) : String :=
  String.intercalate nlStr doc

/-- Regex `/^##/`. -/
def isHeading2 (s : String) : Bool :=
  match s.data with
  | '#' :: '#' :: _ => true
  | _ => false

/-- Regex `/^\s+/.test`. -/
def startsWithWs (s : String) : Bool :=
  match s.data with
  | c :: _ => isWsChar c
  | [] => false

/-- JS `text.replace(/^\s+/, "")`: strip the leading whitespace run. -/
def stripLeadingWs (s : String) : String :=
  ⟨s.data.dropWhile isWsChar⟩

/-- The body-collection loop shared (duplicated verbatim in the source)
between `buildEntries` of the live-preview module and
`parseEntriesFromMarkdown` of the reading-view post-processor.  Starting at
line `ln`, with accumulated body lines, raw lines (both reversed) and the
last included line index `endN`: stop before another header line, before a
`##` heading and before any other non-blank non-indented line; include a
blank line as `""`; include an indented line with its leading whitespace
stripped. -/
def scanBodyGo (doc : List String) :
    Nat → Nat → List String → List String → Nat → List String × List String × Nat
  | 0, _, body, raw, endN => (body.reverse, raw.reverse, endN)
  | fuel + 1, ln, body, raw, endN =>
    if ln < doc.length then
      let text := lineText doc ln
      if isTimelineLine text then (body.reverse, raw.reverse, endN)
      else if isHeading2 text then (body.reverse, raw.reverse, endN)
      else if jsTrim text = emptyStr then
        scanBodyGo doc fuel (ln + 1) (emptyStr :: body) (text :: raw) ln
      else if startsWithWs text then
        scanBodyGo doc fuel (ln + 1) (stripLeadingWs text :: body) (text :: raw) ln
      else (body.reverse, raw.reverse, endN)
    else (body.reverse, raw.reverse, endN)

/-- Body collection for the entry whose header is line `i`: body lines, raw
body lines, and the terminal (last included) line index (the loop visits at
most the lines below `i`, so `doc.length` iterations always suffice). -/
def scanBody (doc : List String) (i : Nat) : List String × List String × Nat :=
  scanBodyGo doc doc.length (i + 1) [] [] i

/-- Location text as computed by the reading-view post-processor: drop a
leading `\[\[...\]\]` (with surrounding whitespace), cut at `" with "`,
flatten remaining wikilinks, trim.  This models the inline regex
`t.replace(/^\s*\[\[[^\]]+\]\]\s*/, "")`. -/
def dropPrimaryLink (s : String) : String :=
  let r0 := s.data.dropWhile isWsChar
  match r0 with
  | '[' :: '[' :: r1 =>
    let content := r1.takeWhile (fun c => c != ']')
    let r2 := r1.dropWhile (fun c => c != ']')
    match content, r2 with
    | _ :: _, ']' :: ']' :: r3 => ⟨r3.dropWhile isWsChar⟩
    | _, _ => s
  | _ => s

/-- JS `head.split(" with ")[0]`: the part before the first `" with "`. -/
def takeUntilWith (s : String) : String :=
  match findSub withDelim.data s.data with
  | none => s
  | some i => ⟨s.data.take i⟩

/-- Title computation, identical in the live-preview module and the
reading-view post-processor. -/
def entryTitle (head : String) : String :=
  match extractPrimaryLink head with
  | some p => stripEventIdSuffix p.display
  | none =>
    let plain := takeUntilWith head
    stripEventIdSuffix (stripWikilinks (if plain = emptyStr then "(empty)" else plain))

/-- Location-text computation of the live-preview module (lines 365–372):
empty when there is no primary link; otherwise remove the leading primary
link, cut at `" with "` if found in what remains, flatten wikilinks, trim. -/
def entryLocation (head : String) : String :=
  match extractPrimaryLink head with
  | none => emptyStr
  | some _ =>
    let t := dropPrimaryLink head
    let t2 := match findSub withDelim.data t.data with
              | some i => (⟨t.data.take i⟩ : String)
              | none => t
    jsTrim (stripWikilinks t2)

/-- Location-text computation of the reading-view post-processor: the same
computation without the primary-link guard. -/
def entryLocationRV (head : String) : String :=
  let t := dropPrimaryLink head
  let t2 := match findSub withDelim.data t.data with
            | some i => (⟨t.data.take i⟩ : String)
            | none => t
  jsTrim (stripWikilinks t2)

/-- One parsed reading-view entry (`ParsedEntry` of the post-processor). -/
structure ParsedEntry where
  lineStart : Nat
  lineEnd : Nat
  time : String
  head : String
  title : String
  locationText : String
  participants : List Participant
  bodyLines : List String
  deriving Repr, DecidableEq

/-- Main loop of `parseEntriesFromMarkdown`: for each line, if it is a
header line, collect the body, derive the semantic fields and continue at
the line after the block.  `fuel` bounds the iteration count (the source
loop always terminates since the index strictly increases, but fuel keeps
the translation elementary). -/
def parseEntriesGo (lines : List String) : Nat → Nat → List ParsedEntry
  | 0, _ => []
  | fuel + 1, i =>
    if i < lines.length then
      let line := lineText lines i
      if isTimelineLine line then
        match parseTimelineLine line with
        | some p =>
          match scanBody lines i with
          | (body, _, endN) =>
            let head := p.head
            { lineStart := i, lineEnd := endN, time := p.timeText, head := head,
              title := entryTitle head, locationText := entryLocationRV head,
              participants := extractParticipants head,
              bodyLines := body } :: parseEntriesGo lines fuel (endN + 1)
        | none => parseEntriesGo lines fuel (i + 1)
      else parseEntriesGo lines fuel (i + 1)
    else []

/-- `parseEntriesFromMarkdown` of the reading-view post-processor. -/
def parseEntriesFromMarkdown (md : String) : List ParsedEntry :=
  let lines := splitNL md
  parseEntriesGo lines (lines.length + 1) 0

/-- Character offset of the start of line `n`: the lengths of the previous
lines plus one separator per previous line (CodeMirror `doc.line(n).from`). -/
def lineFromOff (doc : List String) (n : Nat) : Nat :=
  ((doc.take n).map String.length).sum + n

/-- Character offset of the end of line `n` (CodeMirror `doc.line(n).to`). -/
def lineToOff (doc : List String) (n : Nat) : Nat :=
  lineFromOff doc n + (lineText doc n).length

/-- CodeMirror `doc.lineAt(pos).number` (0-based): the line whose
`[from, to]` span contains `pos`, clamped to the last line. -/
def lineNumAt : List String → Nat → Nat
  | [], _ => 0
  | l :: ls, pos =>
    if pos ≤ l.length then 0
    else match ls with
         | [] => 0
         | _ :: _ => lineNumAt ls (pos - (l.length + 1)) + 1

/-- One step of the `findNearestTimeLineAbove` loop: `some r` means the loop
returns `r` at this line (a header found, or a stop at a `##` heading or at
a non-blank non-indented line); `none` means it keeps walking upward. -/
def nearCheck (doc : List String) (ln : Nat) : Option (Option Nat) :=
  let text := lineText doc ln
  if isTimelineLine text then some (some ln)
  else if isHeading2 text then some none
  else if !(jsTrim text).isEmpty && !startsWithWs text then some none
  else none

/-- `findNearestTimeLineAbove` scanning loop: check up to `remaining` more
lines walking upward from line `ln`; the walk also stops (returning `none`)
at the first line of the document. -/
def findNearGo (doc : List String) : Nat → Nat → Option Nat
  | r + 1, l + 1 =>
    (match nearCheck doc (l + 1) with
     | some res => res
     | none => findNearGo doc r l)
  | _, ln =>
    (match nearCheck doc ln with
     | some res => res
     | none => none)

/-- `findNearestTimeLineAbove` with `MAX_LOOKBACK_LINES = 50`. -/
def findNearestTimeLineAbove (doc : List String) (ln : Nat) : Option Nat :=
  findNearGo doc 50 ln

/-- The live-preview `TimelineEntry`. -/
structure TLEntry where
  efrom : Nat
  eto : Nat
  lineFrom : Nat
  editPos : Nat
  time : String
  title : String
  locationText : String
  participants : List Participant
  bodyLines : List String
  raw : String
  deriving Repr, DecidableEq

/-- Construction of one `TimelineEntry` from header line `i`, terminal line
`endN`, the parsed header and the collected body. -/
def mkTLEntry (doc : List String) (i endN : Nat) (p : TLParsed)
    (body raw : List String) : TLEntry :=
  { efrom := lineFromOff doc i,
    eto := lineToOff doc endN,
    lineFrom := lineFromOff doc i,
    editPos := if p.head.length > 0 then lineFromOff doc i + p.headStart else lineToOff doc i,
    time := p.timeText,
    title := entryTitle p.head,
    locationText := entryLocation p.head,
    participants := extractParticipants p.head,
    bodyLines := body,
    raw := String.intercalate nlStr (lineText doc i :: raw) }

/-- The `while (pos <= to)` loop of `buildEntries` for one visible range
`[·, to]`, carrying the seen-set and the accumulated entries.  Starting
inside a block body jumps to the nearest header line above; a seen line is
skipped; a header line not yet seen yields one entry and the scan resumes
after its block.  The loop does not terminate on all inputs (a later range
restarting inside an already-seen entry's body re-jumps to the same seen
header for ever), so iteration is bounded by `fuel`. -/
def scanGo (doc : List String) (tto : Nat) :
    Nat → List Nat → List TLEntry → Nat → List Nat × List TLEntry
  | 0, seen, acc, _ => (seen, acc)
  | fuel + 1, seen, acc, pos =>
    if pos > tto then (seen, acc)
    else
      let i0 := lineNumAt doc pos
      if lineFromOff doc i0 > tto then (seen, acc)
      else
        let i := if isTimelineLine (lineText doc i0) then i0
                 else match findNearestTimeLineAbove doc i0 with
                      | some n => n
                      | none => i0
        if lineFromOff doc i ∈ seen then
          scanGo doc tto fuel seen acc (lineToOff doc i + 1)
        else
          let seen' := lineFromOff doc i :: seen
          match parseTimelineLine (lineText doc i) with
          | none => scanGo doc tto fuel seen' acc (lineToOff doc i + 1)
          | some p =>
            match scanBody doc i with
            | (body, raw, endN) =>
              scanGo doc tto fuel seen' (acc ++ [mkTLEntry doc i endN p body raw])
                (lineToOff doc endN + 1)

/-- `buildEntries`: fold the per-range scan over the visible ranges,
sharing the seen-set and the entry accumulator. -/
def buildEntries (doc : List String) (ranges : List (Nat × Nat)) (fuel : Nat) : List TLEntry :=
  (ranges.foldl (fun st r => scanGo doc r.2 fuel st.1 st.2 r.1)
    (([], []) : List Nat × List TLEntry)).2

/-- `selectionOverlaps`: some selection range `[r.from, r.to]` satisfies
`r.from <= to && r.to >= from` (closed-interval intersection). -/
def selectionOverlaps (sel : List (Nat × Nat)) (f t : Nat) : Bool :=
  sel.any (fun r => r.1 ≤ t && f ≤ r.2)

/-- A decoration: the empty-state placeholder widget or an entry card. -/
inductive DecoWidget
  | emptyState : DecoWidget
  | card : TLEntry → DecoWidget
  deriving Repr, DecidableEq

/-- One decoration over `[dfrom, dto]`. -/
structure Deco where
  dfrom : Nat
  dto : Nat
  widget : DecoWidget
  deriving Repr, DecidableEq

/-- Stable insertion of an entry into a list sorted by `efrom`. -/
def insertByFrom (e : TLEntry) : List TLEntry → List TLEntry
  | [] => [e]
  | x :: xs => if e.efrom < x.efrom then e :: x :: xs else x :: insertByFrom e xs

/-- JS `entries.sort((a, b) => a.from - b.from)` (a stable sort by start
offset), modelled as stable insertion sort. -/
def sortEntries : List TLEntry → List TLEntry
  | [] => []
  | x :: xs => insertByFrom x (sortEntries xs)

/-- Decoration construction from an already-scanned entry list (the part of
`buildDecorations` after `buildEntries`): live-preview and daily-note-path
checks, the empty-document placeholder, and the selection-suppressed card
replacements in sorted order.  The two host checks are passed as booleans. -/
def buildDecorationsFromEntries (doc : List String) (entries : List TLEntry)
    (sel : List (Nat × Nat)) (isLive pathOk : Bool) : List Deco :=
  if !isLive then []
  else if !pathOk then []
  else if entries.isEmpty then
    if !(jsTrim (docString doc)).isEmpty then []
    else [⟨0, 0, DecoWidget.emptyState⟩]
  else
    ((sortEntries entries).filter (fun e => !selectionOverlaps sel e.efrom e.eto)).map
      (fun e => ⟨e.efrom, e.eto, DecoWidget.card e⟩)

/-- Full `buildDecorations`. -/
def buildDecorations (doc : List String) (ranges : List (Nat × Nat))
    (sel : List (Nat × Nat)) (isLive pathOk : Bool) (fuel : Nat) : List Deco :=
  buildDecorationsFromEntries doc (buildEntries doc ranges fuel) sel isLive pathOk

/-- The host-visible editor state a trigger reacts to. -/
structure ViewState where
  doc : List String
  ranges : List (Nat × Nat)
  sel : List (Nat × Nat)
  isLive : Bool
  pathOk : Bool

/-- A generous iteration budget for one scan of a view state. -/
def defaultFuel (v : ViewState) : Nat :=
  (docString v.doc).length + v.doc.length + v.ranges.length + 2

/-- The candidate decoration set recomputed synchronously by a trigger. -/
def viewCompute (v : ViewState) : List Deco :=
  buildDecorations v.doc v.ranges v.sel v.isLive v.pathOk (defaultFuel v)

/-- State of `TimelineLivePreviewSyncPlugin` plus the microtask queue and
the log of decoration sets applied through `view.dispatch`. -/
structure SchedState where
  scheduled : Bool
  next : Option (List Deco)
  queued : Nat
  applied : List (List Deco)
  deriving Repr, DecidableEq

/-- The plugin's state before its constructor runs. -/
def schedStart : SchedState :=
  ⟨false, none, 0, []⟩

/-- `scheduleSync`: store the freshly computed decorations as pending
(overwriting), and queue one microtask unless one is already queued. -/
def scheduleSync (d : List Deco) (s : SchedState) : SchedState :=
  if s.scheduled then { s with next := some d }
  else { s with next := some d, scheduled := true, queued := s.queued + 1 }

/-- Run one queued microtask: clear the `scheduled` flag, and apply whatever
is pending now (if anything), clearing the pending slot. -/
def runMicrotask (s : SchedState) : SchedState :=
  if s.queued = 0 then s
  else
    match s.next with
    | none => { s with queued := s.queued - 1, scheduled := false }
    | some d =>
      { s with queued := s.queued - 1, scheduled := false, next := none,
               applied := s.applied ++ [d] }

/-- A burst of triggers within one scheduling window: each trigger
recomputes and calls `scheduleSync` synchronously. -/
def runBurst (vs : List ViewState) (s : SchedState) : SchedState :=
  vs.foldl (fun s v => scheduleSync (viewCompute v) s) s

/-- Well-formed visible ranges as supplied by the host: each range has
`from ≤ to` and consecutive ranges are ascending, overlapping at most at
their edges. -/
def RangesChained (ranges : List (Nat × Nat)) : Prop :=
  (∀ r ∈ ranges, r.1 ≤ r.2) ∧ List.Chain' (fun a b => a.2 ≤ b.1) ranges

/-- A legal entry block span: header line `h`, terminal line `n`, with the
header recognized by the grammar and no other header line inside the block. -/
def EntrySpanOK (doc : List String) (h n : Nat) : Prop :=
  h ≤ n ∧ n < doc.length ∧ isTimelineLine (lineText doc h) = true ∧
    ∀ k, h < k → k ≤ n → isTimelineLine (lineText doc k) = false

/-- The entry `e` occupies exactly the block `[h, n]` of the document. -/
def EntryAt (doc : List String) (h n : Nat) (e : TLEntry) : Prop :=
  e.efrom = lineFromOff doc h ∧ e.eto = lineToOff doc n ∧ EntrySpanOK doc h n

/-- Well-formed scan output, described by the list of line spans of the
produced entries: every span is a legal block and each new span starts
strictly after every earlier span ends. -/
inductive MetaOK (doc : List String) : List (Nat × Nat) → Prop
  | nil : MetaOK doc []
  | snoc {ms : List (Nat × Nat)} {h n : Nat} :
      MetaOK doc ms → EntrySpanOK doc h n → (∀ p ∈ ms, p.2 < h) →
      MetaOK doc (ms ++ [(h, n)])

/-- Decidable check for a `~token` id suffix: the maximal alphanumeric
suffix is nonempty and is immediately preceded by `~`. -/
def hasIdSuffix (cs : List Char) : Bool :=
  let a := cs.reverse.takeWhile isAlnumChar
  !a.isEmpty && ((cs.reverse.drop a.length).head? == some '~')

/-- Sample document used by witnesses. -/
def sampleDoc : List String :=
  ["09:00 [[A]] x", "  body", "", "10:30 [[B]] with [[C]]", "plain", "11:00 note here"]

/-- Sample visible ranges covering `sampleDoc`. -/
def sampleRanges : List (Nat × Nat) :=
  [(0, 20), (21, 66)]

/-- Sample entry value used by witnesses. -/
def sampleEntry : TLEntry :=
  ⟨10, 25, 10, 16, "09:00", "T", emptyStr, [], [], "09:00 T"⟩

/-- Sample whitespace-only document used by witnesses. -/
def blankDoc : List String :=
  ["", "  "]

/-- Sample nonblank entry-free document used by witnesses. -/
def plainDoc : List String :=
  ["just text"]

/-- The example header of the spec's §8 test list. -/
def standupHead : String := "[[Standup]] with [[Anna]], [[Tom]]"

/-- The §8 example header line. -/
def standupLine : String := "09:00 [[Standup]] with [[Anna]], [[Tom]]"

/-- The §8 example document with suffix-carrying link and indented body. -/
def nick11Doc : String :=
  "13:00 [[Nick 1:1 ~abc123]] with [[Nick Stocks]]\n      Weekly sync"

/-- Expected time label of the §8 examples. -/
def time0900 : String := "09:00"

/-- Expected primary target of the Standup example. -/
def standupStr : String := "Standup"

/-- Expected first participant display of the Standup example. -/
def annaStr : String := "Anna"

/-- Expected second participant display of the Standup example. -/
def tomStr : String := "Tom"

/-- The location text the code actually computes for the Standup example. -/
def withAnnaTom : String := "with Anna, Tom"

/-- Expected title of the Nick 1:1 example. -/
def nick11Title : String := "Nick 1:1"

/-- Expected body line of the Nick 1:1 example. -/
def weeklySyncStr : String := "Weekly sync"

/-- Offset of the header text in the Standup example line. -/
def standupHeadStart : Nat := 6

/-- A sample view state over the whitespace-only document. -/
def blankView : ViewState :=
  ⟨blankDoc, [(0, 3)], [], true, true⟩

/-- A sample view state over `sampleDoc`. -/
def sampleView : ViewState :=
  ⟨sampleDoc, sampleRanges, [(0, 0)], true, true⟩

/-- The id token of the Nick 1:1 example. -/
def tokAbc : String := "abc123"

/-- The raw title of the Nick 1:1 example before suffix stripping. -/
def nickRawTitle : String := "Nick 1:1 ~abc123"

/-- A title whose trailing token contains a dash, so no suffix is removed. -/
def dashTitle : String := "x ~ab-c"

theorem mem_insertByFrom {e a : TLEntry} {l : List TLEntry} :
    a ∈ insertByFrom e l ↔ a = e ∨ a ∈ l := by
  induction l with
  | nil => simp [insertByFrom]
  | cons x xs ih =>
    by_cases h : e.efrom < x.efrom
    · simp [insertByFrom, h]
    · simp [insertByFrom, h, ih]
      tauto

theorem mem_sortEntries {a : TLEntry} {l : List TLEntry} :
    a ∈ sortEntries l ↔ a ∈ l := by
  induction l with
  | nil => simp [sortEntries]
  | cons x xs ih => simp [sortEntries, mem_insertByFrom, ih]

theorem card_not_mem_decos (doc : List String) (entries : List TLEntry)
    (sel : List (Nat × Nat)) (e : TLEntry)
    (hov : selectionOverlaps sel e.efrom e.eto = true) :
    DecoWidget.card e ∉
      (buildDecorationsFromEntries doc entries sel true true).map Deco.widget := by
  intro hmem
  unfold buildDecorationsFromEntries at hmem
  by_cases hE : entries.isEmpty
  · by_cases hT : (jsTrim (docString doc)).isEmpty <;> simp [hE, hT] at hmem
  · simp only [Bool.not_true, Bool.false_eq_true, if_false, hE, List.map_map] at hmem
    obtain ⟨x, hx, hcard⟩ := List.mem_map.mp hmem
    obtain ⟨-, hkeep⟩ := List.mem_filter.mp hx
    have hxe : x = e := by
      have : DecoWidget.card x = DecoWidget.card e := hcard
      exact DecoWidget.card.inj this
    rw [hxe, hov] at hkeep
    simp at hkeep

theorem runBurst_scheduled (vs : List ViewState) (c : List Deco) (q : Nat)
    (ap : List (List Deco)) :
    runBurst vs ⟨true, some c, q, ap⟩ =
      ⟨true, some (vs.foldl (fun _ v => viewCompute v) c), q, ap⟩ := by
  induction vs generalizing c with
  | nil => rfl
  | cons v t ih =>
    show runBurst t (scheduleSync (viewCompute v) ⟨true, some c, q, ap⟩) = _
    rw [show scheduleSync (viewCompute v) ⟨true, some c, q, ap⟩
          = ⟨true, some (viewCompute v), q, ap⟩ from rfl]
    rw [ih]
    rfl

theorem foldl_lastCompute (vs : List ViewState) (v0 : ViewState) :
    vs.foldl (fun _ v => viewCompute v) (viewCompute v0) = viewCompute (vs.getLastD v0) := by
  induction vs generalizing v0 with
  | nil => rfl
  | cons v t ih =>
    show t.foldl (fun _ v => viewCompute v) (viewCompute v) = _
    rw [ih, List.getLastD_cons]

theorem runBurst_start (v0 : ViewState) (vs : List ViewState) :
    runBurst (v0 :: vs) schedStart =
      ⟨true, some (viewCompute (vs.getLastD v0)), 1, []⟩ := by
  show runBurst vs (scheduleSync (viewCompute v0) schedStart) = _
  rw [show scheduleSync (viewCompute v0) schedStart
        = ⟨true, some (viewCompute v0), 1, []⟩ from rfl]
  rw [runBurst_scheduled, foldl_lastCompute]

/-- C3: within one scheduling window, a burst of triggers applies nothing
while the burst runs, queues exactly one microtask, and that single
microtask applies exactly the decoration set computed for the last trigger
of the burst, returning the scheduler to idle. -/
theorem claim3_scheduler_coalesces_last_write_wins (v0 : ViewState) (vs : List ViewState) :
    (runBurst (v0 :: vs) schedStart).applied = []
    ∧ (runBurst (v0 :: vs) schedStart).queued = 1
    ∧ runMicrotask (runBurst (v0 :: vs) schedStart) =
        ⟨false, none, 0, [viewCompute (vs.getLastD v0)]⟩ := by
  rw [runBurst_start]
  exact ⟨rfl, rfl, rfl⟩

/-- C1: any entry whose range intersects some selection range is excluded
from the replacement-decoration set built by `buildDecorations`, and the
rebuild is deterministic: scheduler runs whose last trigger carries the same
document, visible ranges and selection apply the same decoration set. -/
theorem claim1_selection_exclusion_deterministic
    (doc : List String) (entries : List TLEntry) (sel : List (Nat × Nat)) (e : TLEntry)
    (_he : e ∈ entries)
    (hov : selectionOverlaps sel e.efrom e.eto = true)
    (v1 v2 : ViewState) (vs1 vs2 : List ViewState)
    (hsame : vs1.getLastD v1 = vs2.getLastD v2) :
    DecoWidget.card e ∉
      (buildDecorationsFromEntries doc entries sel true true).map Deco.widget
    ∧ (runMicrotask (runBurst (v1 :: vs1) schedStart)).applied
        = (runMicrotask (runBurst (v2 :: vs2) schedStart)).applied := by
  refine ⟨card_not_mem_decos doc entries sel e hov, ?_⟩
  rw [runBurst_start, runBurst_start]
  show [viewCompute (vs1.getLastD v1)] = [viewCompute (vs2.getLastD v2)]
  rw [hsame]

theorem claim1_witness :
    DecoWidget.card sampleEntry ∉
      (buildDecorationsFromEntries sampleDoc [sampleEntry] [(0, 30)] true true).map Deco.widget
    ∧ (runMicrotask (runBurst [sampleView] schedStart)).applied
        = (runMicrotask (runBurst [sampleView] schedStart)).applied :=
  claim1_selection_exclusion_deterministic sampleDoc [sampleEntry] [(0, 30)] sampleEntry
    (by decide) (by decide) sampleView sampleView [] [] rfl

/-- C9: selection suppression treats the entry range as a closed interval: a
cursor exactly at the entry's end offset (or start offset) counts as
intersecting and suppresses the card, even though the half-open
`[start, end)` range does not contain the end position. -/
theorem claim9_cursor_at_edges_suppresses
    (doc : List String) (entries : List TLEntry) (e : TLEntry)
    (_he : e ∈ entries) (hle : e.efrom ≤ e.eto) :
    selectionOverlaps [(e.eto, e.eto)] e.efrom e.eto = true
    ∧ selectionOverlaps [(e.efrom, e.efrom)] e.efrom e.eto = true
    ∧ DecoWidget.card e ∉
        (buildDecorationsFromEntries doc entries [(e.eto, e.eto)] true true).map Deco.widget
    ∧ DecoWidget.card e ∉
        (buildDecorationsFromEntries doc entries [(e.efrom, e.efrom)] true true).map Deco.widget
    ∧ ¬ (e.efrom ≤ e.eto ∧ e.eto < e.eto) := by
  have h1 : selectionOverlaps [(e.eto, e.eto)] e.efrom e.eto = true := by
    simp [selectionOverlaps]; exact hle
  have h2 : selectionOverlaps [(e.efrom, e.efrom)] e.efrom e.eto = true := by
    simp [selectionOverlaps]; exact hle
  exact ⟨h1, h2, card_not_mem_decos doc entries _ e h1,
    card_not_mem_decos doc entries _ e h2, by omega⟩

theorem claim9_witness :
    selectionOverlaps [(25, 25)] sampleEntry.efrom sampleEntry.eto = true
    ∧ DecoWidget.card sampleEntry ∉
        (buildDecorationsFromEntries sampleDoc [sampleEntry] [(25, 25)] true true).map
          Deco.widget :=
  ⟨(claim9_cursor_at_edges_suppresses sampleDoc [sampleEntry] sampleEntry
      (by decide) (by decide)).1,
   (claim9_cursor_at_edges_suppresses sampleDoc [sampleEntry] sampleEntry
      (by decide) (by decide)).2.2.1⟩

/-- C8: when the entry scan is empty, a whitespace-only document yields
exactly one empty-state placeholder decoration, and a document with
non-whitespace content yields no decoration at all (given the live-preview
and daily-note checks pass). -/
theorem claim8_placeholder_on_blank_doc
    (doc : List String) (ranges : List (Nat × Nat)) (sel : List (Nat × Nat)) (fuel : Nat)
    (hent : buildEntries doc ranges fuel = []) :
    (jsTrim (docString doc) = emptyStr →
       buildDecorations doc ranges sel true true fuel = [⟨0, 0, DecoWidget.emptyState⟩])
    ∧ (jsTrim (docString doc) ≠ emptyStr →
       buildDecorations doc ranges sel true true fuel = []) := by
  unfold buildDecorations buildDecorationsFromEntries
  rw [hent]
  constructor
  · intro h
    rw [h]
    rfl
  · intro h
    have hne : (jsTrim (docString doc)).isEmpty = false := by
      rcases Bool.eq_false_or_eq_true ((jsTrim (docString doc)).isEmpty) with hc | hc
      · exact absurd (show jsTrim (docString doc) = emptyStr from
          (String.isEmpty_iff _).mp hc) h
      · exact hc
    simp [hne]

theorem claim8_witness :
    buildDecorations blankDoc [(0, 3)] [] true true 10 = [⟨0, 0, DecoWidget.emptyState⟩]
    ∧ buildDecorations plainDoc [(0, 9)] [] true true 10 = [] :=
  ⟨(claim8_placeholder_on_blank_doc blankDoc [(0, 3)] [] 10 (by decide)).1 (by decide),
   (claim8_placeholder_on_blank_doc plainDoc [(0, 9)] [] 10 (by decide)).2 (by decide)⟩

/-- C4 (code-bug evaluation): on the spec's §8 example header the code
computes time `09:00`, primary target `Standup` and the participants
`Anna`, `Tom` exactly as claimed, but the location text comes out as
`with Anna, Tom` rather than the empty string: removing the leading primary
link also consumes the space before `with`, so the subsequent
`indexOf(" with ")` misses and the participants leak into the location
(both in the live-preview and in the reading-view computation). -/
theorem claim4_standup_eval :
    parseTimelineLine standupLine = some ⟨time0900, standupHead, standupHeadStart⟩
    ∧ (extractPrimaryLink standupHead).map Participant.target = some standupStr
    ∧ extractParticipants standupHead = [⟨annaStr, annaStr⟩, ⟨tomStr, tomStr⟩]
    ∧ entryLocation standupHead = withAnnaTom
    ∧ entryLocationRV standupHead = withAnnaTom
    ∧ ¬ entryLocation standupHead = emptyStr := by
  decide

theorem bool_ne_false {b : Bool} (h : b ≠ false) : b = true := by
  cases b
  · exact absurd rfl h
  · rfl

theorem bool_ne_true {b : Bool} (h : b ≠ true) : b = false := by
  cases b
  · rfl
  · exact absurd rfl h

theorem hit_reduce_tilde (cs t : List Char) (hd : cs.dropWhile isWsChar = '~' :: t) :
    idSuffixHit cs = (!t.isEmpty && t.all isAlnumChar) := by
  unfold idSuffixHit
  rw [hd]
  rfl

theorem hit_reduce_other (cs : List Char) (c : Char) (t : List Char)
    (hd : cs.dropWhile isWsChar = c :: t) (hc : c ≠ '~') :
    idSuffixHit cs = false := by
  unfold idSuffixHit
  rw [hd]
  split
  · rename_i t2 heq
    injection heq with h1 h2
    exact absurd h1 hc
  · rfl

theorem hit_empty (cs : List Char) (hd : cs.dropWhile isWsChar = []) :
    idSuffixHit cs = false := by
  unfold idSuffixHit
  rw [hd]

theorem hit_iff (cs : List Char) :
    idSuffixHit cs = true ↔
      ∃ t, cs.dropWhile isWsChar = '~' :: t ∧ t ≠ [] ∧ ∀ c ∈ t, isAlnumChar c = true := by
  rcases hd : cs.dropWhile isWsChar with _ | ⟨c, t⟩
  · rw [hit_empty cs hd]
    simp
  · by_cases hc : c = '~'
    · subst hc
      rw [hit_reduce_tilde cs t hd]
      constructor
      · intro h
        rw [Bool.and_eq_true, Bool.not_eq_true'] at h
        refine ⟨t, rfl, ?_, List.all_eq_true.mp h.2⟩
        intro ht
        rw [ht] at h
        simp at h
      · rintro ⟨t', ht', hne, hall⟩
        injection ht' with _ h2
        subst h2
        rw [Bool.and_eq_true, Bool.not_eq_true']
        constructor
        · apply Bool.eq_false_iff.mpr
          intro hEmp
          rw [List.isEmpty_iff] at hEmp
          exact hne hEmp
        · exact List.all_eq_true.mpr hall
    · rw [hit_reduce_other cs c t hd hc]
      constructor
      · intro h
        simp at h
      · rintro ⟨t', ht', -, -⟩
        injection ht' with h1 _
        exact absurd h1 hc

theorem hit_cons_ws {c : Char} (xs : List Char) (h : isWsChar c = true) :
    idSuffixHit (c :: xs) = idSuffixHit xs := by
  unfold idSuffixHit
  rw [List.dropWhile_cons, if_pos h]

theorem hit_allws_tilde (ws tok : List Char) (hws : ∀ c ∈ ws, isWsChar c = true)
    (hne : tok ≠ []) (halnum : ∀ c ∈ tok, isAlnumChar c = true) :
    idSuffixHit (ws ++ '~' :: tok) = true := by
  induction ws with
  | nil =>
    rw [List.nil_append, hit_iff]
    refine ⟨tok, ?_, hne, halnum⟩
    rw [List.dropWhile_cons, if_neg (by decide)]
  | cons c ws' ih =>
    rw [List.cons_append, hit_cons_ws _ (hws c (by simp))]
    exact ih (fun x hx => hws x (by simp [hx]))

theorem hit_false_of_nonws (l m tok : List Char)
    (hnw : ∃ x ∈ l, isWsChar x = false) :
    idSuffixHit (l ++ (m ++ '~' :: tok)) = false := by
  induction l with
  | nil => simp at hnw
  | cons c l' ih =>
    by_cases hc : isWsChar c = true
    · rw [List.cons_append, hit_cons_ws _ hc]
      apply ih
      rcases hnw with ⟨x, hx, hxw⟩
      rcases List.mem_cons.mp hx with rfl | hx'
      · rw [hc] at hxw
        cases hxw
      · exact ⟨x, hx', hxw⟩
    · have hc' : isWsChar c = false := Bool.eq_false_iff.mpr hc
      have hdw : ((c :: l') ++ (m ++ '~' :: tok)).dropWhile isWsChar
          = c :: (l' ++ (m ++ '~' :: tok)) := by
        rw [List.cons_append, List.dropWhile_cons, if_neg (by rw [hc']; simp)]
      by_cases ht : c = '~'
      · subst ht
        rw [hit_reduce_tilde _ _ hdw]
        have hmem : ('~' : Char) ∈ l' ++ (m ++ '~' :: tok) := by simp
        have hfa : (l' ++ (m ++ '~' :: tok)).all isAlnumChar = false := by
          apply Bool.eq_false_iff.mpr
          intro hall
          have := List.all_eq_true.mp hall '~' hmem
          exact absurd this (by decide)
        rw [hfa, Bool.and_false]
      · exact hit_reduce_other _ c _ hdw ht

theorem rstrip_cons_of_nonws {c : Char} (l : List Char) (hc : isWsChar c = false) :
    ((c :: l).reverse.dropWhile isWsChar).reverse =
      c :: (l.reverse.dropWhile isWsChar).reverse := by
  rw [List.reverse_cons, List.dropWhile_append]
  by_cases he : (l.reverse.dropWhile isWsChar).isEmpty
  · rw [if_pos he, List.dropWhile_cons, if_neg (by rw [hc]; simp)]
    rw [List.isEmpty_iff] at he
    rw [he]
    rfl
  · rw [if_neg he, List.reverse_append]
    rfl

theorem rstrip_cons_of_tail_nonws {c : Char} (l : List Char)
    (hnw : ∃ x ∈ l, isWsChar x = false) :
    ((c :: l).reverse.dropWhile isWsChar).reverse =
      c :: (l.reverse.dropWhile isWsChar).reverse := by
  rw [List.reverse_cons, List.dropWhile_append]
  have hne : (l.reverse.dropWhile isWsChar).isEmpty = false := by
    rcases hnw with ⟨x, hx, hxw⟩
    apply Bool.eq_false_iff.mpr
    intro he
    rw [List.isEmpty_iff, List.dropWhile_eq_nil_iff] at he
    have := he x (by simp [hx])
    rw [hxw] at this
    cases this
  rw [if_neg (by rw [hne]; simp), List.reverse_append]
  rfl

theorem rstrip_cons_nonws_any {c : Char} (l : List Char)
    (hnw : ∃ x ∈ c :: l, isWsChar x = false) :
    ((c :: l).reverse.dropWhile isWsChar).reverse =
      c :: (l.reverse.dropWhile isWsChar).reverse := by
  rcases hnw with ⟨x, hx, hxw⟩
  rcases List.mem_cons.mp hx with rfl | hx'
  · exact rstrip_cons_of_nonws l hxw
  · exact rstrip_cons_of_tail_nonws l ⟨x, hx', hxw⟩

theorem rstrip_of_allws (l : List Char) (h : ∀ x ∈ l, isWsChar x = true) :
    (l.reverse.dropWhile isWsChar).reverse = ([] : List Char) := by
  have hd : l.reverse.dropWhile isWsChar = [] := by
    rw [List.dropWhile_eq_nil_iff]
    intro a ha
    exact h a (by simpa using ha)
  rw [hd]
  rfl

theorem dropWhile_rstrip_comm (l : List Char) :
    ((l.reverse.dropWhile isWsChar).reverse).dropWhile isWsChar =
      ((l.dropWhile isWsChar).reverse.dropWhile isWsChar).reverse := by
  induction l with
  | nil => rfl
  | cons c t ih =>
    by_cases hc : isWsChar c = true
    · by_cases hnw : ∃ x ∈ t, isWsChar x = false
      · rw [rstrip_cons_of_tail_nonws t hnw, List.dropWhile_cons, if_pos hc, ih,
          List.dropWhile_cons, if_pos hc]
      · push_neg at hnw
        have hall : ∀ x ∈ t, isWsChar x = true := fun x hx => bool_ne_false (hnw x hx)
        have h1 : ∀ x ∈ c :: t, isWsChar x = true := by
          intro x hx
          rcases List.mem_cons.mp hx with rfl | hx'
          · exact hc
          · exact hall x hx'
        rw [rstrip_of_allws _ h1]
        have h2 : (c :: t).dropWhile isWsChar = [] := by
          rw [List.dropWhile_eq_nil_iff]
          exact h1
        rw [h2]
        rfl
    · have hc' : isWsChar c = false := Bool.eq_false_iff.mpr hc
      rw [rstrip_cons_of_nonws t hc', List.dropWhile_cons, if_neg (by rw [hc']; simp),
        List.dropWhile_cons, if_neg (by rw [hc']; simp), List.reverse_cons,
        List.dropWhile_append]
      by_cases he : (t.reverse.dropWhile isWsChar).isEmpty
      · rw [if_pos he]
        rw [List.isEmpty_iff] at he
        rw [he]
        rw [List.dropWhile_cons, if_neg (by rw [hc']; simp)]
        rfl
      · rw [if_neg he, List.reverse_append]
        rfl

theorem jsTrimL_rstrip (l : List Char) :
    jsTrimL ((l.reverse.dropWhile isWsChar).reverse) = jsTrimL l := by
  unfold jsTrimL
  rw [dropWhile_rstrip_comm l, List.reverse_reverse, List.dropWhile_idempotent]

theorem stripIdScan_of_hit {c : Char} (rest : List Char)
    (h : idSuffixHit (c :: rest) = true) :
    stripIdScan (c :: rest) = [] := by
  unfold stripIdScan
  rw [if_pos h]

theorem stripIdScan_cons_no_hit {c : Char} {rest : List Char}
    (h : idSuffixHit (c :: rest) = false) :
    stripIdScan (c :: rest) = c :: stripIdScan rest := by
  simp only [stripIdScan]
  rw [if_neg (by rw [h]; simp)]

theorem stripIdScan_suffix (s ws tok : List Char)
    (hws : ∀ c ∈ ws, isWsChar c = true) (hne : tok ≠ [])
    (halnum : ∀ c ∈ tok, isAlnumChar c = true) :
    stripIdScan (s ++ ws ++ '~' :: tok) = (s.reverse.dropWhile isWsChar).reverse := by
  induction s with
  | nil =>
    rw [List.nil_append]
    have hh : idSuffixHit (ws ++ '~' :: tok) = true := hit_allws_tilde ws tok hws hne halnum
    rcases hd : ws ++ '~' :: tok with _ | ⟨c, rest⟩
    · exact absurd hd (by simp)
    · rw [hd] at hh
      rw [stripIdScan_of_hit rest hh]
      rfl
  | cons c s' ih =>
    rw [show (c :: s') ++ ws ++ '~' :: tok = c :: (s' ++ ws ++ '~' :: tok) by simp]
    by_cases hall : ∀ x ∈ c :: s', isWsChar x = true
    · have hh : idSuffixHit (c :: (s' ++ ws ++ '~' :: tok)) = true := by
        have h2 : ∀ x ∈ (c :: s') ++ ws, isWsChar x = true := by
          intro x hx
          rcases List.mem_append.mp hx with h | h
          · exact hall x h
          · exact hws x h
        have h3 := hit_allws_tilde ((c :: s') ++ ws) tok h2 hne halnum
        rw [show (c :: s') ++ ws ++ '~' :: tok = c :: (s' ++ ws ++ '~' :: tok) by simp] at h3
        exact h3
      rw [stripIdScan_of_hit _ hh, rstrip_of_allws _ hall]
    · push_neg at hall
      have hnw : ∃ x ∈ c :: s', isWsChar x = false := by
        rcases hall with ⟨x, hx, hxw⟩
        exact ⟨x, hx, bool_ne_true hxw⟩
      have hh : idSuffixHit (c :: (s' ++ ws ++ '~' :: tok)) = false := by
        have h4 := hit_false_of_nonws (c :: s') ws tok hnw
        rw [show (c :: s') ++ (ws ++ '~' :: tok) = c :: (s' ++ ws ++ '~' :: tok) by simp] at h4
        exact h4
      rw [stripIdScan_cons_no_hit hh]
      rw [ih]
      exact (rstrip_cons_nonws_any s' hnw).symm

theorem takeWhile_all (p : Char → Bool) (l : List Char) (h : ∀ x ∈ l, p x = true) :
    l.takeWhile p = l := by
  induction l with
  | nil => rfl
  | cons c t ih =>
    rw [List.takeWhile_cons, if_pos (h c (by simp))]
    rw [ih (fun x hx => h x (by simp [hx]))]

theorem hasIdSuffix_of_hit (cs : List Char) (h : idSuffixHit cs = true) :
    hasIdSuffix cs = true := by
  obtain ⟨t, ht, hne, hall⟩ := (hit_iff cs).mp h
  have hsplit : cs = cs.takeWhile isWsChar ++ '~' :: t := by
    rw [← ht, List.takeWhile_append_dropWhile]
  have hrev : cs.reverse = t.reverse ++ '~' :: (cs.takeWhile isWsChar).reverse := by
    conv_lhs => rw [hsplit]
    rw [List.reverse_append, List.reverse_cons, List.append_assoc]
    rfl
  have hallrev : ∀ x ∈ t.reverse, isAlnumChar x = true := by
    intro x hx
    exact hall x (by simpa using hx)
  have htake : cs.reverse.takeWhile isAlnumChar = t.reverse := by
    rw [hrev, List.takeWhile_append, if_pos (by rw [takeWhile_all _ _ hallrev])]
    rw [show (('~' :: (cs.takeWhile isWsChar).reverse).takeWhile isAlnumChar) = [] by
      rw [List.takeWhile_cons, if_neg (by decide)]]
    rw [List.append_nil]
  unfold hasIdSuffix
  rw [Bool.and_eq_true, Bool.not_eq_true']
  constructor
  · rw [htake]
    apply Bool.eq_false_iff.mpr
    intro he
    rw [List.isEmpty_iff] at he
    exact hne (by simpa using he)
  · rw [htake, hrev, List.drop_left]
    rw [beq_iff_eq]
    rfl

theorem hasIdSuffix_cons_of (c : Char) (rest : List Char)
    (h : hasIdSuffix rest = true) : hasIdSuffix (c :: rest) = true := by
  unfold hasIdSuffix at h ⊢
  rw [Bool.and_eq_true, Bool.not_eq_true'] at h
  obtain ⟨hne, hd⟩ := h
  rw [beq_iff_eq] at hd
  have hnotall : ∃ x ∈ rest.reverse, isAlnumChar x = false := by
    by_contra hcon
    push_neg at hcon
    have hall : ∀ x ∈ rest.reverse, isAlnumChar x = true :=
      fun x hx => bool_ne_false (hcon x hx)
    have h5 : rest.reverse.takeWhile isAlnumChar = rest.reverse := takeWhile_all _ _ hall
    rw [h5, List.drop_length] at hd
    simp at hd
  have hlen : ¬ ((rest.reverse.takeWhile isAlnumChar).length = rest.reverse.length) := by
    intro hl
    have heq : rest.reverse.takeWhile isAlnumChar = rest.reverse :=
      (List.takeWhile_prefix _).eq_of_length hl
    rcases hnotall with ⟨x, hx, hxf⟩
    have hx2 : x ∈ rest.reverse.takeWhile isAlnumChar := by
      rw [heq]
      exact hx
    have := List.mem_takeWhile_imp hx2
    rw [hxf] at this
    cases this
  have hrev : (c :: rest).reverse = rest.reverse ++ [c] := by
    rw [List.reverse_cons]
  have htake : (c :: rest).reverse.takeWhile isAlnumChar
      = rest.reverse.takeWhile isAlnumChar := by
    rw [hrev, List.takeWhile_append, if_neg hlen]
  have hlenle : (rest.reverse.takeWhile isAlnumChar).length ≤ rest.reverse.length :=
    (List.takeWhile_prefix _).length_le
  rw [Bool.and_eq_true, Bool.not_eq_true']
  constructor
  · rw [htake]
    exact hne
  · rw [htake, hrev, List.drop_append_of_le_length hlenle]
    rw [beq_iff_eq]
    rcases hdrop : rest.reverse.drop (rest.reverse.takeWhile isAlnumChar).length
        with _ | ⟨y, ys⟩
    · rw [hdrop] at hd
      simp at hd
    · rw [hdrop] at hd
      simp at hd
      simp [hd]

theorem stripIdScan_of_no_suffix (cs : List Char) (h : hasIdSuffix cs = false) :
    stripIdScan cs = cs := by
  induction cs with
  | nil => rfl
  | cons c rest ih =>
    have hhit : idSuffixHit (c :: rest) = false := by
      apply Bool.eq_false_iff.mpr
      intro ht
      rw [hasIdSuffix_of_hit _ ht] at h
      cases h
    have hrest : hasIdSuffix rest = false := by
      apply Bool.eq_false_iff.mpr
      intro ht
      rw [hasIdSuffix_cons_of c rest ht] at h
      cases h
    rw [stripIdScan_cons_no_hit hhit]
    rw [ih hrest]


/-- C10: `stripEventIdSuffix` removes a trailing `~token` exactly when the
token is a nonempty run of ASCII letters and digits sitting at the very end
of the string, together with the whitespace run before the `~`; any title
without such a suffix (for example one whose trailing token contains `-` or
`_`) is returned unchanged except for trimming. -/
theorem claim10_strip_id_suffix :
    (∀ (s ws tok : List Char), (∀ c ∈ ws, isWsChar c = true) → tok ≠ [] →
       (∀ c ∈ tok, isAlnumChar c = true) →
       stripEventIdSuffix ⟨s ++ ws ++ '~' :: tok⟩ = jsTrim ⟨s⟩)
    ∧ (∀ cs : List Char, hasIdSuffix cs = false →
       stripEventIdSuffix ⟨cs⟩ = jsTrim ⟨cs⟩) := by
  constructor
  · intro s ws tok hws hne halnum
    show (⟨jsTrimL (stripIdScan (s ++ ws ++ '~' :: tok))⟩ : String) = ⟨jsTrimL s⟩
    rw [stripIdScan_suffix s ws tok hws hne halnum, jsTrimL_rstrip]
  · intro cs h
    show (⟨jsTrimL (stripIdScan cs)⟩ : String) = ⟨jsTrimL cs⟩
    rw [stripIdScan_of_no_suffix cs h]

theorem claim10_witness :
    stripEventIdSuffix nickRawTitle = nick11Title
    ∧ stripEventIdSuffix dashTitle = jsTrim dashTitle := by
  constructor
  · have h := claim10_strip_id_suffix.1 nick11Title.data [' '] tokAbc.data
      (by decide) (by decide) (by decide)
    have e1 : (⟨nick11Title.data ++ [' '] ++ '~' :: tokAbc.data⟩ : String) = nickRawTitle := by
      decide
    have e2 : jsTrim (⟨nick11Title.data⟩ : String) = nick11Title := by decide
    rw [e1, e2] at h
    exact h
  · exact claim10_strip_id_suffix.2 dashTitle.data (by decide)

theorem dig_not_ws (a : Char) (h : isDigitChar a = true) : isWsChar a = false := by
  apply Bool.eq_false_iff.mpr
  intro hw
  simp [isWsChar] at hw
  rcases hw with ((((hw | hw) | hw) | hw) | hw) | hw <;> (subst hw; exact absurd h (by decide))

theorem dig_not_marker (a : Char) (h : isDigitChar a = true) : isMarkerChar a = false := by
  apply Bool.eq_false_iff.mpr
  intro hw
  simp [isMarkerChar] at hw
  rcases hw with (hw | hw) | hw <;> (subst hw; exact absurd h (by decide))

theorem jsTrimL_no_lead (l : List Char) :
    (jsTrimL l).dropWhile isWsChar = jsTrimL l := by
  unfold jsTrimL
  rw [show ((l.dropWhile isWsChar).reverse.dropWhile isWsChar).reverse.dropWhile isWsChar
        = (((l.dropWhile isWsChar).dropWhile isWsChar).reverse.dropWhile isWsChar).reverse
      from dropWhile_rstrip_comm (l.dropWhile isWsChar)]
  rw [List.dropWhile_idempotent]

theorem jsTrimL_idem (l : List Char) : jsTrimL (jsTrimL l) = jsTrimL l := by
  have h1 : (jsTrimL l).dropWhile isWsChar = jsTrimL l := jsTrimL_no_lead l
  show (((jsTrimL l).dropWhile isWsChar).reverse.dropWhile isWsChar).reverse = jsTrimL l
  rw [h1]
  unfold jsTrimL
  rw [List.reverse_reverse, List.dropWhile_idempotent]

theorem parseTimePrefix_digits (a b c d : Char) (rest : List Char)
    (ha : isDigitChar a = true) (hb : isDigitChar b = true)
    (hc : isDigitChar c = true) (hd : isDigitChar d = true) :
    parseTimePrefix (a :: b :: ':' :: c :: d :: rest) = some ([a, b, ':', c, d], rest) := by
  unfold parseTimePrefix
  rw [List.dropWhile_cons, if_neg (by rw [dig_not_ws a ha]; simp)]
  dsimp only
  rw [dig_not_marker a ha]
  simp [ha, hb, hc, hd]

theorem parseTimePrefix_shape (cs : List Char) (t rest : List Char)
    (h : parseTimePrefix cs = some (t, rest)) :
    ∃ a b c d, t = [a, b, ':', c, d] ∧ isDigitChar a = true ∧ isDigitChar b = true ∧
      isDigitChar c = true ∧ isDigitChar d = true := by
  unfold parseTimePrefix at h
  dsimp only at h
  split at h
  · split at h
    · rename_i hdig
      injection h with h1
      injection h1 with h2 h3
      rw [Bool.and_eq_true, Bool.and_eq_true, Bool.and_eq_true] at hdig
      exact ⟨_, _, _, _, h2.symm, hdig.1.1.1, hdig.1.1.2, hdig.1.2, hdig.2⟩
    · cases h
  · cases h

/-- C6: for every line accepted by the header grammar, parsing, then
re-serializing as `time + " " + head`, then parsing again yields the same
`{time, head}` pair (the reparsed header offset is the fixed label width). -/
theorem claim6_parse_serialize_roundtrip (line : String) (p : TLParsed)
    (h : parseTimelineLine line = some p) :
    parseTimelineLine (p.timeText ++ " " ++ p.head) = some ⟨p.timeText, p.head, 6⟩ := by
  unfold parseTimelineLine at h
  rcases hpp : parseTimePrefix line.data with _ | ⟨t, rest⟩
  · rw [hpp] at h
    cases h
  · rw [hpp] at h
    rcases rest with _ | ⟨c0, rest'⟩
    · dsimp only at h
      cases h
    · dsimp only at h
      by_cases hws : isWsChar c0 = true
      · rw [if_pos hws] at h
        injection h with hp
        obtain ⟨a, b, c, d, hts, ha, hb, hc, hd⟩ := parseTimePrefix_shape _ _ _ hpp
        subst hts
        have htime : p.timeText = ⟨[a, b, ':', c, d]⟩ := by rw [← hp]
        have hhead : p.head = ⟨jsTrimL ((c0 :: rest').dropWhile isWsChar)⟩ := by rw [← hp]
        have hdata : p.head.data = jsTrimL ((c0 :: rest').dropWhile isWsChar) := by
          rw [hhead]
        have hL : (p.timeText ++ " " ++ p.head).data
            = a :: b :: ':' :: c :: d :: (' ' :: p.head.data) := by
          rw [String.data_append, String.data_append, htime]
          rfl
        unfold parseTimelineLine
        rw [hL, parseTimePrefix_digits a b c d (' ' :: p.head.data) ha hb hc hd]
        dsimp only
        rw [if_pos (show isWsChar ' ' = true by decide)]
        have hnl : (' ' :: p.head.data).dropWhile isWsChar = p.head.data := by
          rw [List.dropWhile_cons, if_pos (show isWsChar ' ' = true by decide)]
          rw [hdata, jsTrimL_no_lead]
        rw [hnl]
        have hht : (⟨jsTrimL p.head.data⟩ : String) = p.head := by
          rw [hdata, jsTrimL_idem]
          exact hhead.symm
        rw [hht, ← htime]
        have hlen : (a :: b :: ':' :: c :: d :: (' ' :: p.head.data)).length
            - p.head.data.length = 6 := by
          simp
          omega
        rw [hlen]
      · rw [if_neg hws] at h
        cases h

theorem scanBodyGo_terminal (doc : List String) :
    ∀ (fuel ln : Nat) (body raw : List String) (endN : Nat), ln = endN + 1 →
      ∃ tail : List String,
        (scanBodyGo doc fuel ln body raw endN).1 = body.reverse ++ tail ∧
        (scanBodyGo doc fuel ln body raw endN).2.2 = endN + tail.length := by
  intro fuel
  induction fuel with
  | zero =>
    intro ln body raw endN _
    exact ⟨[], by simp [scanBodyGo], by simp [scanBodyGo]⟩
  | succ fuel ih =>
    intro ln body raw endN hln
    by_cases hlt : ln < doc.length
    · by_cases h1 : isTimelineLine (lineText doc ln) = true
      · refine ⟨[], ?_, ?_⟩ <;> simp [scanBodyGo, hlt, h1]
      · by_cases h2 : isHeading2 (lineText doc ln) = true
        · refine ⟨[], ?_, ?_⟩ <;> simp [scanBodyGo, hlt, h1, h2]
        · by_cases h3 : jsTrim (lineText doc ln) = emptyStr
          · obtain ⟨tail, ht1, ht2⟩ :=
              ih (ln + 1) (emptyStr :: body) (lineText doc ln :: raw) ln rfl
            refine ⟨emptyStr :: tail, ?_, ?_⟩
            · rw [show scanBodyGo doc (fuel + 1) ln body raw endN
                    = scanBodyGo doc fuel (ln + 1) (emptyStr :: body)
                        (lineText doc ln :: raw) ln by
                  simp [scanBodyGo, hlt, h1, h2, h3]]
              rw [ht1]
              simp
            · rw [show scanBodyGo doc (fuel + 1) ln body raw endN
                    = scanBodyGo doc fuel (ln + 1) (emptyStr :: body)
                        (lineText doc ln :: raw) ln by
                  simp [scanBodyGo, hlt, h1, h2, h3]]
              rw [ht2]
              simp
              omega
          · by_cases h4 : startsWithWs (lineText doc ln) = true
            · obtain ⟨tail, ht1, ht2⟩ :=
                ih (ln + 1) (stripLeadingWs (lineText doc ln) :: body)
                  (lineText doc ln :: raw) ln rfl
              refine ⟨stripLeadingWs (lineText doc ln) :: tail, ?_, ?_⟩
              · rw [show scanBodyGo doc (fuel + 1) ln body raw endN
                      = scanBodyGo doc fuel (ln + 1) (stripLeadingWs (lineText doc ln) :: body)
                          (lineText doc ln :: raw) ln by
                    simp [scanBodyGo, hlt, h1, h2, h3, h4]]
                rw [ht1]
                simp
              · rw [show scanBodyGo doc (fuel + 1) ln body raw endN
                      = scanBodyGo doc fuel (ln + 1) (stripLeadingWs (lineText doc ln) :: body)
                          (lineText doc ln :: raw) ln by
                    simp [scanBodyGo, hlt, h1, h2, h3, h4]]
                rw [ht2]
                simp
                omega
            · refine ⟨[], ?_, ?_⟩ <;> simp [scanBodyGo, hlt, h1, h2, h3, h4]
    · refine ⟨[], ?_, ?_⟩ <;> simp [scanBodyGo, hlt]

/-- C5: the block assembler scans forward from the line after the header and
stops (exclusively) at another header line, at a `##` heading, and at any
other non-blank non-indented line; it includes a blank line as an empty body
separator and continues; it includes an indented line with one indentation
level stripped and continues; and the returned terminal line index is the
last included line (header index plus the number of included body lines). -/
theorem claim5_block_assembler (doc : List String) (fuel ln : Nat)
    (body raw : List String) (endN : Nat) (hlt : ln < doc.length) :
    (isTimelineLine (lineText doc ln) = true →
       scanBodyGo doc (fuel + 1) ln body raw endN = (body.reverse, raw.reverse, endN))
    ∧ (isHeading2 (lineText doc ln) = true → isTimelineLine (lineText doc ln) = false →
       scanBodyGo doc (fuel + 1) ln body raw endN = (body.reverse, raw.reverse, endN))
    ∧ (isTimelineLine (lineText doc ln) = false → isHeading2 (lineText doc ln) = false →
       jsTrim (lineText doc ln) = emptyStr →
       scanBodyGo doc (fuel + 1) ln body raw endN
         = scanBodyGo doc fuel (ln + 1) (emptyStr :: body) (lineText doc ln :: raw) ln)
    ∧ (isTimelineLine (lineText doc ln) = false → isHeading2 (lineText doc ln) = false →
       jsTrim (lineText doc ln) ≠ emptyStr → startsWithWs (lineText doc ln) = true →
       scanBodyGo doc (fuel + 1) ln body raw endN
         = scanBodyGo doc fuel (ln + 1)
             (stripLeadingWs (lineText doc ln) :: body) (lineText doc ln :: raw) ln)
    ∧ (isTimelineLine (lineText doc ln) = false → isHeading2 (lineText doc ln) = false →
       jsTrim (lineText doc ln) ≠ emptyStr → startsWithWs (lineText doc ln) = false →
       scanBodyGo doc (fuel + 1) ln body raw endN = (body.reverse, raw.reverse, endN))
    ∧ (∀ (i : Nat) (b r : List String) (e : Nat), scanBody doc i = (b, r, e) →
        e = i + b.length ∧ i ≤ e) := by
  refine ⟨?_, ?_, ?_, ?_, ?_, ?_⟩
  · intro h1
    simp [scanBodyGo, hlt, h1]
  · intro h2 h1
    simp [scanBodyGo, hlt, h1, h2]
  · intro h1 h2 h3
    simp [scanBodyGo, hlt, h1, h2, h3]
  · intro h1 h2 h3 h4
    simp [scanBodyGo, hlt, h1, h2, h3, h4]
  · intro h1 h2 h3 h4
    simp [scanBodyGo, hlt, h1, h2, h3, h4]
  · intro i b r e h
    obtain ⟨tail, ht1, ht2⟩ := scanBodyGo_terminal doc doc.length (i + 1) [] [] i rfl
    unfold scanBody at h
    rw [h] at ht1 ht2
    simp at ht1 ht2
    constructor
    · rw [ht2, ht1]
    · rw [ht2]
      omega

theorem claim5_witness :
    scanBodyGo sampleDoc 5 3 [] [] 2 = ([], [], 2)
    ∧ (2 = 0 + (["body", emptyStr] : List String).length ∧ 0 ≤ 2) :=
  ⟨(claim5_block_assembler sampleDoc 4 3 [] [] 2 (by decide)).1 (by decide),
   (claim5_block_assembler sampleDoc 4 3 [] [] 2 (by decide)).2.2.2.2.2
     0 ["body", emptyStr] ["  body", emptyStr] 2 (by decide)⟩

theorem claim6_witness :
    parseTimelineLine (time0900 ++ " " ++ standupHead) = some ⟨time0900, standupHead, 6⟩ :=
  claim6_parse_serialize_roundtrip standupLine ⟨time0900, standupHead, standupHeadStart⟩
    (by decide)

theorem lineFromOff_succ (doc : List String) (n : Nat) :
    lineFromOff doc (n + 1) = lineToOff doc n + 1 := by
  unfold lineToOff lineFromOff lineText
  rw [List.take_succ, List.map_append, List.sum_append, List.getD_eq_getElem?_getD]
  rcases h : doc[n]? with _ | s
  · simp [h, emptyStr]
    omega
  · simp [h]
    omega

theorem lineFromOff_mono (doc : List String) {n m : Nat} (h : n ≤ m) :
    lineFromOff doc n ≤ lineFromOff doc m := by
  induction m, h using Nat.le_induction with
  | base => exact le_refl _
  | succ m _ ih =>
    refine le_trans ih ?_
    rw [lineFromOff_succ]
    unfold lineToOff
    omega

theorem lineTo_lt_lineFrom (doc : List String) {n m : Nat} (h : n < m) :
    lineToOff doc n < lineFromOff doc m := by
  have h2 : lineFromOff doc (n + 1) ≤ lineFromOff doc m := lineFromOff_mono doc h
  rw [lineFromOff_succ] at h2
  omega

theorem lineFrom_le_lineTo (doc : List String) (n : Nat) :
    lineFromOff doc n ≤ lineToOff doc n := by
  unfold lineToOff
  omega

theorem lineNumAt_mono (doc : List String) : ∀ {p q : Nat}, p ≤ q →
    lineNumAt doc p ≤ lineNumAt doc q := by
  induction doc with
  | nil =>
    intro p q _
    simp [lineNumAt]
  | cons l ls ih =>
    intro p q h
    simp only [lineNumAt]
    by_cases hq : q ≤ l.length
    · rw [if_pos (le_trans h hq), if_pos hq]
    · rw [if_neg hq]
      by_cases hp : p ≤ l.length
      · rw [if_pos hp]
        rcases ls with _ | ⟨a, t⟩
        · exact le_refl 0
        · exact Nat.zero_le _
      · rw [if_neg hp]
        rcases ls with _ | ⟨a, t⟩
        · exact le_refl 0
        · exact Nat.succ_le_succ (ih (by omega))

theorem lineNumAt_lt_length (doc : List String) (hne : doc ≠ []) (pos : Nat) :
    lineNumAt doc pos < doc.length := by
  induction doc generalizing pos with
  | nil => exact absurd rfl hne
  | cons l ls ih =>
    simp only [lineNumAt]
    by_cases hp : pos ≤ l.length
    · rw [if_pos hp]
      simp
    · rw [if_neg hp]
      rcases ls with _ | ⟨a, t⟩
      · simp
      · have := ih (by simp) (pos - (l.length + 1))
        simp only [List.length_cons] at *
        omega

theorem lineFromOff_cons (l : String) (ls : List String) (n : Nat) :
    lineFromOff (l :: ls) (n + 1) = l.length + 1 + lineFromOff ls n := by
  unfold lineFromOff
  simp [List.take_succ_cons]
  omega

theorem lineText_cons (l : String) (ls : List String) (n : Nat) :
    lineText (l :: ls) (n + 1) = lineText ls n := by
  unfold lineText
  rfl

theorem lineToOff_cons (l : String) (ls : List String) (n : Nat) :
    lineToOff (l :: ls) (n + 1) = l.length + 1 + lineToOff ls n := by
  unfold lineToOff
  rw [lineFromOff_cons, lineText_cons]
  omega

theorem le_lineNumAt_after (doc : List String) :
    ∀ n, n < doc.length → n ≤ lineNumAt doc (lineToOff doc n + 1) := by
  induction doc with
  | nil =>
    intro n hn
    simp at hn
  | cons l ls ih =>
    intro n hn
    rcases n with _ | n
    · exact Nat.zero_le _
    · have hls : n < ls.length := by simpa using hn
      rw [lineToOff_cons]
      simp only [lineNumAt]
      rw [if_neg (by omega)]
      rcases ls with _ | ⟨a, t⟩
      · simp at hls
      · dsimp only
        have h2 := ih n hls
        rw [show l.length + 1 + lineToOff (a :: t) n + 1 - (l.length + 1)
              = lineToOff (a :: t) n + 1 by omega]
        omega

theorem nearCheck_some_some (doc : List String) (ln m : Nat)
    (h : nearCheck doc ln = some (some m)) :
    m = ln ∧ isTimelineLine (lineText doc ln) = true := by
  unfold nearCheck at h
  by_cases h1 : isTimelineLine (lineText doc ln) = true
  · rw [if_pos h1] at h
    injection h with h2
    injection h2 with h3
    exact ⟨h3.symm, h1⟩
  · rw [if_neg h1] at h
    split at h
    · cases h
    · split at h
      · cases h
      · cases h

theorem nearCheck_none (doc : List String) (ln : Nat)
    (h : nearCheck doc ln = none) :
    isTimelineLine (lineText doc ln) = false := by
  by_contra hc
  rw [Bool.not_eq_false] at hc
  unfold nearCheck at h
  rw [if_pos hc] at h
  cases h

theorem findNearGo_char (doc : List String) :
    ∀ (r ln n : Nat), findNearGo doc r ln = some n →
      n ≤ ln ∧ isTimelineLine (lineText doc n) = true ∧
        ∀ k, n < k → k ≤ ln → isTimelineLine (lineText doc k) = false := by
  intro r
  induction r with
  | zero =>
    intro ln n h
    unfold findNearGo at h
    rcases hc : nearCheck doc ln with _ | res
    · rw [hc] at h
      cases h
    · rw [hc] at h
      dsimp only at h
      subst h
      obtain ⟨rfl, hTL⟩ := nearCheck_some_some doc ln n hc
      exact ⟨le_refl _, hTL, fun k hk1 hk2 => by omega⟩
  | succ r ih =>
    intro ln n h
    rcases ln with _ | l
    · unfold findNearGo at h
      rcases hc : nearCheck doc 0 with _ | res
      · rw [hc] at h
        cases h
      · rw [hc] at h
        dsimp only at h
        subst h
        obtain ⟨rfl, hTL⟩ := nearCheck_some_some doc 0 n hc
        exact ⟨le_refl _, hTL, fun k hk1 hk2 => by omega⟩
    · unfold findNearGo at h
      rcases hc : nearCheck doc (l + 1) with _ | res
      · rw [hc] at h
        dsimp only at h
        obtain ⟨hle, hTL, hint⟩ := ih l n h
        refine ⟨by omega, hTL, ?_⟩
        intro k hk1 hk2
        rcases Nat.lt_or_ge k (l + 1) with hk | hk
        · exact hint k hk1 (by omega)
        · have : k = l + 1 := by omega
          subst this
          exact nearCheck_none doc (l + 1) hc
      · rw [hc] at h
        dsimp only at h
        subst h
        obtain ⟨rfl, hTL⟩ := nearCheck_some_some doc (l + 1) n hc
        exact ⟨le_refl _, hTL, fun k hk1 hk2 => by omega⟩

theorem isTimelineLine_iff_parse (s : String) :
    isTimelineLine s = true ↔ (parseTimelineLine s).isSome = true := by
  unfold isTimelineLine parseTimelineLine
  rcases hpp : parseTimePrefix s.data with _ | ⟨t, rest⟩
  · simp
  · rcases rest with _ | ⟨c, r⟩
    · simp
    · dsimp only
      by_cases hw : isWsChar c = true
      · simp [hw]
      · simp [hw]

theorem TL_lt_length (doc : List String) (i : Nat)
    (h : isTimelineLine (lineText doc i) = true) : i < doc.length := by
  by_contra hc
  push_neg at hc
  rw [show lineText doc i = emptyStr from List.getD_eq_default _ _ hc] at h
  exact absurd h (by decide)

theorem scanBodyGo_interior (doc : List String) :
    ∀ (fuel ln : Nat) (body raw : List String) (endN : Nat), ln = endN + 1 →
      ∀ k, ln ≤ k → k ≤ (scanBodyGo doc fuel ln body raw endN).2.2 →
        isTimelineLine (lineText doc k) = false := by
  intro fuel
  induction fuel with
  | zero =>
    intro ln body raw endN hln k hk1 hk2
    simp [scanBodyGo] at hk2
    omega
  | succ fuel ih =>
    intro ln body raw endN hln k hk1 hk2
    by_cases hlt : ln < doc.length
    · by_cases h1 : isTimelineLine (lineText doc ln) = true
      · simp [scanBodyGo, hlt, h1] at hk2
        omega
      · by_cases h2 : isHeading2 (lineText doc ln) = true
        · simp [scanBodyGo, hlt, h1, h2] at hk2
          omega
        · by_cases h3 : jsTrim (lineText doc ln) = emptyStr
          · rw [show scanBodyGo doc (fuel + 1) ln body raw endN
                  = scanBodyGo doc fuel (ln + 1) (emptyStr :: body)
                      (lineText doc ln :: raw) ln by
                simp [scanBodyGo, hlt, h1, h2, h3]] at hk2
            rcases Nat.eq_or_lt_of_le hk1 with hk | hk
            · rw [hk] at h1
              exact Bool.eq_false_iff.mpr h1
            · exact ih (ln + 1) (emptyStr :: body) (lineText doc ln :: raw) ln rfl k
                (by omega) hk2
          · by_cases h4 : startsWithWs (lineText doc ln) = true
            · rw [show scanBodyGo doc (fuel + 1) ln body raw endN
                    = scanBodyGo doc fuel (ln + 1)
                        (stripLeadingWs (lineText doc ln) :: body)
                        (lineText doc ln :: raw) ln by
                  simp [scanBodyGo, hlt, h1, h2, h3, h4]] at hk2
              rcases Nat.eq_or_lt_of_le hk1 with hk | hk
              · rw [hk] at h1
                exact Bool.eq_false_iff.mpr h1
              · exact ih (ln + 1) (stripLeadingWs (lineText doc ln) :: body)
                  (lineText doc ln :: raw) ln rfl k (by omega) hk2
            · simp [scanBodyGo, hlt, h1, h2, h3, h4] at hk2
              omega
    · simp [scanBodyGo, hlt] at hk2
      omega

theorem scanBodyGo_end_lt (doc : List String) :
    ∀ (fuel ln : Nat) (body raw : List String) (endN : Nat), endN < doc.length →
      (scanBodyGo doc fuel ln body raw endN).2.2 < doc.length := by
  intro fuel
  induction fuel with
  | zero =>
    intro ln body raw endN h
    simpa [scanBodyGo] using h
  | succ fuel ih =>
    intro ln body raw endN h
    by_cases hlt : ln < doc.length
    · by_cases h1 : isTimelineLine (lineText doc ln) = true
      · simpa [scanBodyGo, hlt, h1] using h
      · by_cases h2 : isHeading2 (lineText doc ln) = true
        · simpa [scanBodyGo, hlt, h1, h2] using h
        · by_cases h3 : jsTrim (lineText doc ln) = emptyStr
          · rw [show scanBodyGo doc (fuel + 1) ln body raw endN
                  = scanBodyGo doc fuel (ln + 1) (emptyStr :: body)
                      (lineText doc ln :: raw) ln by
                simp [scanBodyGo, hlt, h1, h2, h3]]
            exact ih (ln + 1) _ _ ln hlt
          · by_cases h4 : startsWithWs (lineText doc ln) = true
            · rw [show scanBodyGo doc (fuel + 1) ln body raw endN
                    = scanBodyGo doc fuel (ln + 1)
                        (stripLeadingWs (lineText doc ln) :: body)
                        (lineText doc ln :: raw) ln by
                  simp [scanBodyGo, hlt, h1, h2, h3, h4]]
              exact ih (ln + 1) _ _ ln hlt
            · simpa [scanBodyGo, hlt, h1, h2, h3, h4] using h
    · simpa [scanBodyGo, hlt] using h

theorem scanBody_spanOK (doc : List String) (i : Nat)
    (hTL : isTimelineLine (lineText doc i) = true) :
    EntrySpanOK doc i (scanBody doc i).2.2 := by
  have hi : i < doc.length := TL_lt_length doc i hTL
  obtain ⟨tail, -, ht2⟩ := scanBodyGo_terminal doc doc.length (i + 1) [] [] i rfl
  refine ⟨?_, ?_, hTL, ?_⟩
  · unfold scanBody
    rw [ht2]
    omega
  · exact scanBodyGo_end_lt doc doc.length (i + 1) [] [] i hi
  · intro k hk1 hk2
    exact scanBodyGo_interior doc doc.length (i + 1) [] [] i rfl k (by omega) hk2

theorem MetaOK_mem (doc : List String) : ∀ {meta : List (Nat × Nat)},
    MetaOK doc meta → ∀ p ∈ meta, EntrySpanOK doc p.1 p.2 := by
  intro meta h
  induction h with
  | nil => intro p hp; simp at hp
  | snoc hms hok hlt ih =>
    intro p hp
    rcases List.mem_append.mp hp with hp' | hp'
    · exact ih p hp'
    · rw [List.mem_singleton.mp hp']
      exact hok

theorem MetaOK_pairwise (doc : List String) : ∀ {meta : List (Nat × Nat)},
    MetaOK doc meta → List.Pairwise (fun p q => p.2 < q.1) meta := by
  intro meta h
  induction h with
  | nil => exact List.Pairwise.nil
  | snoc hms hok hlt ih =>
    rw [List.pairwise_append]
    refine ⟨ih, List.pairwise_singleton _ _, ?_⟩
    intro a ha b hb
    rw [List.mem_singleton.mp hb]
    exact hlt a ha

theorem forall₂_snoc {R : TLEntry → Nat × Nat → Prop} {l : List TLEntry}
    {m : List (Nat × Nat)} (h : List.Forall₂ R l m) {a : TLEntry} {b : Nat × Nat}
    (hab : R a b) : List.Forall₂ R (l ++ [a]) (m ++ [b]) :=
  List.rel_append h (List.Forall₂.cons hab List.Forall₂.nil)

theorem forall₂_mem_left {R : TLEntry → Nat × Nat → Prop} :
    ∀ {l : List TLEntry} {m : List (Nat × Nat)}, List.Forall₂ R l m →
      ∀ a ∈ l, ∃ b ∈ m, R a b := by
  intro l m h
  induction h with
  | nil => intro a ha; simp at ha
  | cons hab hrest ih =>
    intro a ha
    rcases List.mem_cons.mp ha with rfl | ha'
    · exact ⟨_, by simp, hab⟩
    · obtain ⟨b, hb, hr⟩ := ih a ha'
      exact ⟨b, by simp [hb], hr⟩

theorem le_lineNumAt_of_fromOff_le (doc : List String) :
    ∀ (n pos : Nat), n < doc.length → lineFromOff doc n ≤ pos →
      n ≤ lineNumAt doc pos := by
  induction doc with
  | nil =>
    intro n pos hn _
    simp at hn
  | cons l ls ih =>
    intro n pos hn hle
    rcases n with _ | n
    · exact Nat.zero_le _
    · have hn' : n < ls.length := by simpa using hn
      rw [lineFromOff_cons] at hle
      simp only [lineNumAt]
      rw [if_neg (by unfold lineFromOff at hle; omega)]
      rcases ls with _ | ⟨a, t⟩
      · simp at hn'
      · dsimp only
        have := ih n (pos - (l.length + 1)) hn' (by omega)
        omega

theorem scanGo_step (doc : List String) (tto fuel : Nat) (seen : List Nat)
    (acc : List TLEntry) (pos : Nat) (h1 : ¬pos > tto)
    (h2 : ¬lineFromOff doc (lineNumAt doc pos) > tto) :
    ∃ i, i ≤ lineNumAt doc pos ∧
      (∀ k, i < k → k ≤ lineNumAt doc pos →
        isTimelineLine (lineText doc k) = false) ∧
      scanGo doc tto (fuel + 1) seen acc pos =
        (if lineFromOff doc i ∈ seen then
           scanGo doc tto fuel seen acc (lineToOff doc i + 1)
         else
           match parseTimelineLine (lineText doc i) with
           | none =>
             scanGo doc tto fuel (lineFromOff doc i :: seen) acc (lineToOff doc i + 1)
           | some p =>
             match scanBody doc i with
             | (body, raw, endN) =>
               scanGo doc tto fuel (lineFromOff doc i :: seen)
                 (acc ++ [mkTLEntry doc i endN p body raw])
                 (lineToOff doc endN + 1)) := by
  simp only [scanGo]
  rw [if_neg h1, if_neg h2]
  by_cases hTL : isTimelineLine (lineText doc (lineNumAt doc pos)) = true
  · refine ⟨lineNumAt doc pos, le_refl _, fun k hk1 hk2 => by omega, ?_⟩
    rw [if_pos hTL]
  · rcases hf : findNearestTimeLineAbove doc (lineNumAt doc pos) with _ | n
    · refine ⟨lineNumAt doc pos, le_refl _, fun k hk1 hk2 => by omega, ?_⟩
      rw [if_neg hTL]
    · obtain ⟨ha, _, hc⟩ := findNearGo_char doc 50 (lineNumAt doc pos) n hf
      refine ⟨n, ha, hc, ?_⟩
      rw [if_neg hTL]

theorem scanGo_inv (doc : List String) (tto : Nat) :
    ∀ (fuel : Nat) (seen : List Nat) (acc : List TLEntry) (pos : Nat)
      (meta : List (Nat × Nat)),
      List.Forall₂ (fun e p => EntryAt doc p.1 p.2 e) acc meta →
      MetaOK doc meta →
      (∀ p ∈ meta, lineFromOff doc p.1 ∈ seen) →
      (∀ p ∈ meta, p.1 ≤ lineNumAt doc pos) →
      (∀ p ∈ meta, lineFromOff doc p.1 ≤ tto) →
      ∃ meta',
        List.Forall₂ (fun e p => EntryAt doc p.1 p.2 e)
          (scanGo doc tto fuel seen acc pos).2 meta' ∧
        MetaOK doc meta' ∧
        (∀ p ∈ meta', lineFromOff doc p.1 ∈ (scanGo doc tto fuel seen acc pos).1) ∧
        (∀ p ∈ meta', lineFromOff doc p.1 ≤ tto) := by
  intro fuel
  induction fuel with
  | zero =>
    intro seen acc pos meta hf hm hs _ ht
    exact ⟨meta, hf, hm, hs, ht⟩
  | succ fuel ih =>
    intro seen acc pos meta hf hm hs hl ht
    by_cases hgt : pos > tto
    · rw [show scanGo doc tto (fuel + 1) seen acc pos = (seen, acc) by
        simp only [scanGo]; rw [if_pos hgt]]
      exact ⟨meta, hf, hm, hs, ht⟩
    · by_cases h2 : lineFromOff doc (lineNumAt doc pos) > tto
      · rw [show scanGo doc tto (fuel + 1) seen acc pos = (seen, acc) by
          simp only [scanGo]; rw [if_neg hgt, if_pos h2]]
        exact ⟨meta, hf, hm, hs, ht⟩
      · obtain ⟨i, hile, hfree, heq⟩ := scanGo_step doc tto fuel seen acc pos hgt h2
        have hple : ∀ p ∈ meta, p.1 ≤ i := by
          intro p hp
          have hsp := MetaOK_mem doc hm p hp
          by_contra hcon
          push_neg at hcon
          have hff := hfree p.1 hcon (hl p hp)
          rw [hsp.2.2.1] at hff
          cases hff
        have hiL : ∀ p ∈ meta, i < doc.length := by
          intro p hp
          have hsp := MetaOK_mem doc hm p hp
          have hdoc : doc ≠ [] := by
            intro hnil
            rw [hnil] at hsp
            exact absurd hsp.2.1 (by simp)
          exact lt_of_le_of_lt hile (lineNumAt_lt_length doc hdoc pos)
        rw [heq]
        by_cases hmem : lineFromOff doc i ∈ seen
        · rw [if_pos hmem]
          refine ih seen acc (lineToOff doc i + 1) meta hf hm hs ?_ ht
          intro p hp
          exact le_trans (hple p hp) (le_lineNumAt_after doc i (hiL p hp))
        · rw [if_neg hmem]
          rcases hparse : parseTimelineLine (lineText doc i) with _ | p0
          · dsimp only
            refine ih (lineFromOff doc i :: seen) acc (lineToOff doc i + 1) meta hf hm
              ?_ ?_ ht
            · intro p hp
              exact List.mem_cons_of_mem _ (hs p hp)
            · intro p hp
              exact le_trans (hple p hp) (le_lineNumAt_after doc i (hiL p hp))
          · dsimp only
            have hTLi : isTimelineLine (lineText doc i) = true := by
              refine (isTimelineLine_iff_parse _).mpr ?_
              rw [hparse]
              rfl
            rcases hsb : scanBody doc i with ⟨body, braw, endN⟩
            dsimp only
            have hspan : EntrySpanOK doc i endN := by
              have hx := scanBody_spanOK doc i hTLi
              rw [hsb] at hx
              exact hx
            have hendlen : endN < doc.length := hspan.2.1
            have hiend : i ≤ endN := hspan.1
            refine ih (lineFromOff doc i :: seen)
              (acc ++ [mkTLEntry doc i endN p0 body braw])
              (lineToOff doc endN + 1) (meta ++ [(i, endN)]) ?_ ?_ ?_ ?_ ?_
            · exact forall₂_snoc hf ⟨rfl, rfl, hspan⟩
            · refine MetaOK.snoc hm hspan ?_
              intro p hp
              have hsp := MetaOK_mem doc hm p hp
              have hne : p.1 ≠ i := by
                intro he
                apply hmem
                rw [← he]
                exact hs p hp
              have hlt : p.1 < i := lt_of_le_of_ne (hple p hp) hne
              by_contra hcon
              push_neg at hcon
              have hff := hsp.2.2.2 i hlt hcon
              rw [hTLi] at hff
              cases hff
            · intro p hp
              rcases List.mem_append.mp hp with hp' | hp'
              · exact List.mem_cons_of_mem _ (hs p hp')
              · rw [List.mem_singleton.mp hp']
                exact List.mem_cons_self _ _
            · intro p hp
              rcases List.mem_append.mp hp with hp' | hp'
              · exact le_trans (le_trans (hple p hp') hiend)
                  (le_lineNumAt_after doc endN hendlen)
              · rw [List.mem_singleton.mp hp']
                exact le_trans hiend (le_lineNumAt_after doc endN hendlen)
            · intro p hp
              rcases List.mem_append.mp hp with hp' | hp'
              · exact ht p hp'
              · rw [List.mem_singleton.mp hp']
                exact le_trans (lineFromOff_mono doc hile) (Nat.le_of_not_lt h2)

theorem buildEntriesGo_inv (doc : List String) (fuel : Nat) :
    ∀ (ranges : List (Nat × Nat)) (st : List Nat × List TLEntry)
      (meta : List (Nat × Nat)),
      (∀ r ∈ ranges, r.1 ≤ r.2) →
      List.Chain' (fun a c => a.2 ≤ c.1) ranges →
      List.Forall₂ (fun e p => EntryAt doc p.1 p.2 e) st.2 meta →
      MetaOK doc meta →
      (∀ p ∈ meta, lineFromOff doc p.1 ∈ st.1) →
      (∀ r ∈ ranges.head?.toList, ∀ p ∈ meta, lineFromOff doc p.1 ≤ r.1) →
      ∃ meta',
        List.Forall₂ (fun e p => EntryAt doc p.1 p.2 e)
          (ranges.foldl (fun st r => scanGo doc r.2 fuel st.1 st.2 r.1) st).2 meta' ∧
        MetaOK doc meta' := by
  intro ranges
  induction ranges with
  | nil =>
    intro st meta _ _ hf hm _ _
    exact ⟨meta, hf, hm⟩
  | cons r rest ih =>
    intro st meta hle hch hf hm hs hhd
    rw [List.foldl_cons]
    have hr : r.1 ≤ r.2 := hle r (by simp)
    have hL : ∀ p ∈ meta, p.1 ≤ lineNumAt doc r.1 := by
      intro p hp
      have hsp := MetaOK_mem doc hm p hp
      exact le_lineNumAt_of_fromOff_le doc p.1 r.1
        (lt_of_le_of_lt hsp.1 hsp.2.1) (hhd r (by simp) p hp)
    have hT : ∀ p ∈ meta, lineFromOff doc p.1 ≤ r.2 := fun p hp =>
      le_trans (hhd r (by simp) p hp) hr
    obtain ⟨meta1, hf1, hm1, hs1, ht1⟩ :=
      scanGo_inv doc r.2 fuel st.1 st.2 r.1 meta hf hm hs hL hT
    refine ih (scanGo doc r.2 fuel st.1 st.2 r.1) meta1
      (fun q hq => hle q (List.mem_cons_of_mem _ hq)) ?_ hf1 hm1 hs1 ?_
    · rcases rest with _ | ⟨r0, rest'⟩
      · exact List.chain'_nil
      · exact (List.chain'_cons.mp hch).2
    · intro r' hr' p hp
      have hrel : r.2 ≤ r'.1 := by
        rcases rest with _ | ⟨r0, rest'⟩
        · simp at hr'
        · simp at hr'
          subst hr'
          exact (List.chain'_cons.mp hch).1
      exact le_trans (ht1 p hp) hrel

theorem pairwise_of_forall₂ {R : TLEntry → Nat × Nat → Prop}
    {S : Nat × Nat → Nat × Nat → Prop} {T : TLEntry → TLEntry → Prop} :
    ∀ {l : List TLEntry} {m : List (Nat × Nat)}, List.Forall₂ R l m →
      List.Pairwise S m → (∀ a b p q, R a p → R b q → S p q → T a b) →
      List.Pairwise T l := by
  intro l m h
  induction h with
  | nil => intro _ _; exact List.Pairwise.nil
  | cons hab hrest ih =>
    intro hpw himp
    rw [List.pairwise_cons] at hpw ⊢
    refine ⟨?_, ih hpw.2 himp⟩
    intro a' ha'
    obtain ⟨q, hq, hrq⟩ := forall₂_mem_left hrest a' ha'
    exact himp _ _ _ _ hab hrq (hpw.1 q hq)

/-- C7: the header `13:00 [[Nick 1:1 ~abc123]] with [[Nick Stocks]]`
followed by one indented line `      Weekly sync` parses to a single entry
with title `Nick 1:1` (the `~abc123` suffix stripped) and body lines
`["Weekly sync"]` (indentation stripped). -/
theorem claim7_nick11_eval :
    (parseEntriesFromMarkdown nick11Doc).map (fun e => (e.title, e.bodyLines))
      = [(nick11Title, [weeklySyncStr])] := by
  decide

/-- C2: for every document and every well-formed family of visible ranges
(each `from ≤ to`, consecutive ranges ascending and overlapping at most at
their edges, as CodeMirror's `visibleRanges` supplies them), the entry list
produced by one `buildEntries` scan (at any iteration budget) is
well-formed (`from ≤ to` per entry), sorted strictly ascending by range
start, mutually non-overlapping (each entry ends strictly before the next
begins), and each entry occupies a block of whole lines `[h, n]` headed by
the entry's header line, with the blocks of distinct entries strictly
separated — so every document line belongs to at most one entry. -/
theorem claim2_entries_sorted_disjoint (doc : List String)
    (ranges : List (Nat × Nat)) (fuel : Nat) (h : RangesChained ranges) :
    (∀ e ∈ buildEntries doc ranges fuel, e.efrom ≤ e.eto) ∧
    List.Pairwise (fun a b => a.efrom < b.efrom) (buildEntries doc ranges fuel) ∧
    List.Pairwise (fun a b => a.eto < b.efrom) (buildEntries doc ranges fuel) ∧
    ∃ spans : List (Nat × Nat), List.Forall₂ (fun e p => EntryAt doc p.1 p.2 e)
        (buildEntries doc ranges fuel) spans ∧
      List.Pairwise (fun p q => p.2 < q.1) spans := by
  obtain ⟨meta, hf, hm⟩ := buildEntriesGo_inv doc fuel ranges ([], []) [] h.1 h.2
    List.Forall₂.nil MetaOK.nil (by simp) (by simp)
  have hf' : List.Forall₂ (fun e p => EntryAt doc p.1 p.2 e)
      (buildEntries doc ranges fuel) meta := hf
  have hpw := MetaOK_pairwise doc hm
  refine ⟨?_, ?_, ?_, meta, hf', hpw⟩
  · intro e he
    obtain ⟨p, _, hE⟩ := forall₂_mem_left hf' e he
    rw [hE.1, hE.2.1]
    exact le_trans (lineFromOff_mono doc hE.2.2.1) (lineFrom_le_lineTo doc p.2)
  · refine pairwise_of_forall₂ hf' hpw ?_
    intro a b p q hR1 hR2 hS
    rw [hR1.1, hR2.1]
    exact lt_of_le_of_lt
      (le_trans (lineFromOff_mono doc hR1.2.2.1) (lineFrom_le_lineTo doc p.2))
      (lineTo_lt_lineFrom doc hS)
  · refine pairwise_of_forall₂ hf' hpw ?_
    intro a b p q hR1 hR2 hS
    rw [hR1.2.1, hR2.1]
    exact lineTo_lt_lineFrom doc hS

theorem claim2_witness :
    RangesChained sampleRanges ∧
    ((∀ e ∈ buildEntries sampleDoc sampleRanges 12, e.efrom ≤ e.eto) ∧
     List.Pairwise (fun a b => a.efrom < b.efrom)
       (buildEntries sampleDoc sampleRanges 12) ∧
     List.Pairwise (fun a b => a.eto < b.efrom)
       (buildEntries sampleDoc sampleRanges 12) ∧
     ∃ spans : List (Nat × Nat), List.Forall₂ (fun e p => EntryAt sampleDoc p.1 p.2 e)
         (buildEntries sampleDoc sampleRanges 12) spans ∧
       List.Pairwise (fun p q => p.2 < q.1) spans) :=
  ⟨⟨by decide, by simp [sampleRanges, List.chain'_cons]⟩,
   claim2_entries_sorted_disjoint sampleDoc sampleRanges 12
     ⟨by decide, by simp [sampleRanges, List.chain'_cons]⟩⟩

end TemporalDrift
